import Mathlib

/-!
# RC-5 infrared decoder (`libraries/irDecoder`)

A shallow embedding of `irDecoder.cpp` / `irDecoder.h`: the decoder record
`irVariables`, the consumer call `ir_data`, the set-up call `ir_begin` and the
timer interrupt handler `ISR(TIMER2_COMPA_vect)`.

Machine integers are modelled on `Nat` / `Int` with explicit wrap-around:
`uint8_t` increments and decrements are taken modulo `256`, and the `int`
produced by `_BV` is wrapped to 16 bits (the width of `int` on the AVR target).
-/

namespace IrDecoder

/-! ## Constants (`irDecoder.h`, `irDecoder.cpp`) -/

/-- Header constant `#define IR_NUM_BITS 13`. -/
def IR_NUM_BITS : Nat := 13
/-- Header constant `#define IR_DELAY 3`. -/
def IR_DELAY : Nat := 3
/-- Header constant `#define IR_TIMEOUT 2`. -/
def IR_TIMEOUT : Nat := 2

/-- State code `#define STANDBY 0`. -/
def STANDBY : Nat := 0
/-- State code `#define DELAYING 1`. -/
def DELAYING : Nat := 1
/-- State code `#define WAITING 2`. -/
def WAITING : Nat := 2
/-- State code `#define DELAYING_END 3`. -/
def DELAYING_END : Nat := 3
/-- State code `#define IDLE 4`. -/
def IDLE : Nat := 4

/-! ## Data model -/

/-- The record `struct irVariables`.  The `uint8_t` fields are natural numbers,
the `int16_t` field `data` is an integer. -/
structure irVariables where
  pin : Nat
  state : Nat
  data : Int
  pinState : Nat
  pinStateOld : Nat
  counter : Nat
  dataIndex : Nat
  deriving DecidableEq

/-- The global `irVariables ir = { 0, STANDBY, 0,  0, 0, 0, IR_NUM_BITS };`. -/
def ir : irVariables :=
  { pin := 0, state := STANDBY, data := 0,
    pinState := 0, pinStateOld := 0, counter := 0, dataIndex := IR_NUM_BITS }

/-- Conversion of an integer to the 16-bit two's complement range. -/
def toInt16 (x : Int) : Int := (x + 32768) % 65536 - 32768

/-- The avr-libc bit mask `_BV(n)`, that is `(1 << n)` computed in a 16-bit `int`. -/
def _BV (n : Nat) : Int := toInt16 (2 ^ n)

/-! ## Operations -/

/-- The function `void ir_begin(uint8_t irPin)`: of the decoder record it writes
only `ir.pin`; the rest of its body programs the pin mode and timer 2. -/
def ir_begin (irPin : Nat) (ir : irVariables) : irVariables :=
  { ir with pin := irPin }

/-- The function `int16_t ir_data(void)`: the returned value and the record
after the call. -/
def ir_data (ir : irVariables) : Int × irVariables :=
  if ir.state = IDLE then
    let dataTemp := ir.data
    let ir := { ir with dataIndex := IR_NUM_BITS }
    let ir := { ir with counter := 0 }
    let ir := { ir with data := 0 }
    let ir := { ir with state := STANDBY }
    (dataTemp, ir)
  else
    (0, ir)

/-- The handler `ISR(TIMER2_COMPA_vect)`; `digitalRead` is the value that
`digitalRead(ir.pin)` yields at this tick (`0` is `LOW`). -/
def ISR (digitalRead : Nat) (ir : irVariables) : irVariables :=
  let ir := { ir with pinState := if digitalRead = 0 then 1 else 0 }
  if ir.state = STANDBY then
    if ir.pinState ≠ 0 then { ir with state := DELAYING } else ir
  else if ir.state = DELAYING then
    let ir := { ir with counter := (ir.counter + 1) % 256 }
    if ir.counter > IR_DELAY then
      let ir := { ir with pinStateOld := ir.pinState }
      let ir := { ir with counter := 0 }
      { ir with state := WAITING }
    else ir
  else if ir.state = WAITING then
    if ir.pinState ≠ ir.pinStateOld then
      let ir := { ir with dataIndex := (ir.dataIndex + 255) % 256 }
      let ir := { ir with counter := 0 }
      let ir := { ir with state := DELAYING }
      let ir := if ir.pinState ≠ 0 then
        { ir with data := Int.lor ir.data (_BV ir.dataIndex) } else ir
      if ir.dataIndex = 0 then { ir with state := DELAYING_END } else ir
    else
      let ir := { ir with counter := (ir.counter + 1) % 256 }
      if ir.counter > IR_TIMEOUT then
        let ir := { ir with data := -1 }
        { ir with state := IDLE }
      else ir
  else if ir.state = DELAYING_END then
    let ir := { ir with counter := (ir.counter + 1) % 256 }
    if ir.counter > IR_DELAY then { ir with state := IDLE } else ir
  else ir

/-- One tick at a given logical level: the receiver output is inverting, so the
logical level `true` is the raw pin read `LOW = 0` and `false` is `HIGH = 1`. -/
def step (level : Bool) (ir : irVariables) : irVariables :=
  ISR (if level then 0 else 1) ir

/-- A run of ticks, one per listed logical level, earliest first. -/
def run (levels : List Bool) (ir : irVariables) : irVariables :=
  levels.foldl (fun s l => step l s) ir

/-- The level a stored pin state stands for (`pinState`, `pinStateOld`). -/
def levelVal (level : Bool) : Nat := if level then 1 else 0

/-- States reachable from the initial record by ticks (at any raw pin read),
`ir_data()` calls and `ir_begin()` calls. -/
inductive Reachable : irVariables → Prop
  | init : Reachable ir
  | tick (digitalRead : Nat) {s : irVariables} : Reachable s → Reachable (ISR digitalRead s)
  | read {s : irVariables} : Reachable s → Reachable (ir_data s).2
  | begin (irPin : Nat) {s : irVariables} : Reachable s → Reachable (ir_begin irPin s)

/-- The invariant of the reachable states: the stored pin levels are 0 or 1 and,
phase by phase, the counters are in range and the word under construction is a
13-bit value whose bits below `dataIndex` are clear. -/
def Inv (s : irVariables) : Prop :=
  s.pinState ≤ 1 ∧ s.pinStateOld ≤ 1 ∧
  ((s.state = STANDBY ∧ s.counter = 0 ∧ s.data = 0 ∧ s.dataIndex = 13) ∨
   (s.state = DELAYING ∧ s.counter ≤ 3 ∧ 1 ≤ s.dataIndex ∧ s.dataIndex ≤ 13 ∧
      0 ≤ s.data ∧ s.data < 8192 ∧ s.data % 2 ^ s.dataIndex = 0) ∨
   (s.state = WAITING ∧ s.counter ≤ 2 ∧ 1 ≤ s.dataIndex ∧ s.dataIndex ≤ 13 ∧
      0 ≤ s.data ∧ s.data < 8192 ∧ s.data % 2 ^ s.dataIndex = 0) ∨
   (s.state = DELAYING_END ∧ s.counter ≤ 3 ∧ s.dataIndex = 0 ∧
      0 ≤ s.data ∧ s.data < 8192) ∨
   (s.state = IDLE ∧ (s.data = -1 ∨ (s.dataIndex = 0 ∧ 0 ≤ s.data ∧ s.data ≤ 8191))))

/-- An upper bound on the number of ticks that remain before phase Idle. -/
def remaining (s : irVariables) : Nat :=
  if s.state = DELAYING then 7 * s.dataIndex + 4 - s.counter
  else if s.state = WAITING then 7 * s.dataIndex - s.counter
  else if s.state = DELAYING_END then 4 - s.counter
  else 0

/-- The five samples of bit `i` of the word `w` in a well-timed frame: three
samples of any level (given by `a`), one sample `NOT b`, one sample `b`. -/
def cell (a : Nat → Bool) (w i : Nat) : List Bool :=
  [a (3 * i), a (3 * i + 1), a (3 * i + 2), !(w.testBit i), w.testBit i]

/-- The samples of bits `n - 1`, ..., `0` of `w`, in that order. -/
def cells (a : Nat → Bool) (w : Nat) : Nat → List Bool
  | 0 => []
  | n + 1 => cell a w n ++ cells a w n

/-- The samples of the four end ticks, of any level. -/
def tail (a : Nat → Bool) : List Bool := [a 39, a 40, a 41, a 42]

/-- A well-timed frame for the word `w`: one sample `true`, the cells of bits
12 down to 0, and four samples of any level; `a` supplies the free samples. -/
def frame (a : Nat → Bool) (w : Nat) : List Bool :=
  true :: (cells a w 13 ++ tail a)

/-- An operation on the decoder: a tick at a logical level, or an `ir_data()` call. -/
inductive Op where
  | tick (level : Bool)
  | read
  deriving DecidableEq

/-- The effect of one operation: the value returned (for `ir_data()`) and the
record after it. -/
def Op.apply : Op → irVariables → Option Int × irVariables
  | Op.tick level, s => (none, step level s)
  | Op.read, s => (some (ir_data s).1, (ir_data s).2)

/-- What is observed along a sequence of operations: after each one, the value
returned (if any) and `state`, `data`, `counter`, `dataIndex`. -/
def observe : List Op → irVariables → List (Option Int × Nat × Int × Nat × Nat)
  | [], _ => []
  | op :: ops, s =>
    (((op.apply s).1, (op.apply s).2.state, (op.apply s).2.data, (op.apply s).2.counter,
      (op.apply s).2.dataIndex)) :: observe ops (op.apply s).2

/-- The record after the first 66 ticks of the well-timed frame of the word
5461 (free samples all `false`): the last bit has just been received. -/
def afterLastBit : irVariables :=
  run ((frame (fun _ => false) 5461).take 66) ir

/-- Two records agree on what the decoder reads back: `state`, `data`, `counter`,
`dataIndex`, and in phase Waiting also the reference level `pinStateOld`. -/
def Agree (s t : irVariables) : Prop :=
  s.state = t.state ∧ s.data = t.data ∧ s.counter = t.counter ∧
  s.dataIndex = t.dataIndex ∧ (s.state = WAITING → s.pinStateOld = t.pinStateOld)

/-- The bit that a tick receives, if any: in phase Waiting, when the sample
differs from the reference level `pinStateOld`, the handler takes the sample as
the next bit (`if(ir.pinState)` sets the bit, otherwise it is left 0). -/
def receivedBit (level : Bool) (s : irVariables) : Option Bool :=
  if s.state = WAITING ∧ levelVal level ≠ s.pinStateOld then some level else none

/-- The bits received along a run of ticks, earliest first. -/
def received : List Bool → irVariables → List Bool
  | [], _ => []
  | l :: ls, s => (receivedBit l s).toList ++ received ls (step l s)

/-- The number written by a list of bits, first bit most significant. -/
def bitsVal (bs : List Bool) : Nat :=
  bs.foldl (fun acc b => 2 * acc + (if b then 1 else 0)) 0

/-- The word under construction holds the bits `bs` received so far, first bit
highest, above `dataIndex` clear positions; nothing is said once the sentinel
-1 is stored. -/
def Assembled (bs : List Bool) (s : irVariables) : Prop :=
  s.data ≠ -1 →
    s.data = ((bitsVal bs * 2 ^ s.dataIndex : Nat) : Int) ∧ bs.length + s.dataIndex = 13

/-- The phase changes that a tick may make, as pairs of state codes. -/
def TickEdge (p q : Nat) : Prop :=
  (p = STANDBY ∧ q = STANDBY) ∨ (p = STANDBY ∧ q = DELAYING) ∨
  (p = DELAYING ∧ q = DELAYING) ∨ (p = DELAYING ∧ q = WAITING) ∨
  (p = WAITING ∧ q = WAITING) ∨ (p = WAITING ∧ q = DELAYING) ∨
  (p = WAITING ∧ q = DELAYING_END) ∨ (p = WAITING ∧ q = IDLE) ∨
  (p = DELAYING_END ∧ q = DELAYING_END) ∨ (p = DELAYING_END ∧ q = IDLE) ∨
  (p = IDLE ∧ q = IDLE)

/-- The function `ir_data()` with ticks running between its accesses to the
record, taken in program order: the test of `ir.state`, then `ticks1`, the read
of `ir.data`, then `ticks2`, the write of `ir.dataIndex`, then `ticks3`, the
write of `ir.counter`, then `ticks4`, the write of `ir.data`, then `ticks5`, the
write of `ir.state`. -/
def ir_data_interleaved (ticks1 ticks2 ticks3 ticks4 ticks5 : List Bool) (ir : irVariables) :
    Int × irVariables :=
  if ir.state = IDLE then
    let ir := run ticks1 ir
    let dataTemp := ir.data
    let ir := run ticks2 ir
    let ir := { ir with dataIndex := IR_NUM_BITS }
    let ir := run ticks3 ir
    let ir := { ir with counter := 0 }
    let ir := run ticks4 ir
    let ir := { ir with data := 0 }
    let ir := run ticks5 ir
    let ir := { ir with state := STANDBY }
    (dataTemp, ir)
  else
    (0, ir)

/-- The Idle record left by a timeout on the first bit: the start edge, then
seven samples at level `false`. -/
def timedOut : irVariables :=
  run [true, false, false, false, false, false, false, false] ir

/-! ## Single ticks, phase by phase -/

/-- A tick in phase Standby: a raw read `LOW` starts the delay, any other read
only refreshes `pinState`; the counter is not written. -/
theorem ISR_standby (r : Nat) (s : irVariables) (h : s.state = STANDBY) :
    ISR r s = if r = 0 then { s with pinState := 1, state := DELAYING }
      else { s with pinState := 0 } := by
  by_cases hr : r = 0 <;> simp [ISR, h, hr]

/-- A tick in phase Delaying: the counter advances and, once it exceeds
`IR_DELAY`, the sample becomes the reference level and the phase is Waiting. -/
theorem ISR_delaying (r : Nat) (s : irVariables) (h : s.state = DELAYING) :
    ISR r s = if 3 < (s.counter + 1) % 256 then
        { s with pinState := if r = 0 then 1 else 0, pinStateOld := if r = 0 then 1 else 0,
                 counter := 0, state := WAITING }
      else { s with pinState := if r = 0 then 1 else 0, counter := (s.counter + 1) % 256 } := by
  simp [ISR, h, STANDBY, DELAYING, IR_DELAY]

/-- A tick in phase Waiting whose sample differs from the reference level: one
bit is received. -/
theorem ISR_waiting_edge (r : Nat) (s : irVariables) (h : s.state = WAITING)
    (he : (if r = 0 then 1 else 0) ≠ s.pinStateOld) :
    ISR r s =
      { s with pinState := if r = 0 then 1 else 0,
               dataIndex := (s.dataIndex + 255) % 256, counter := 0,
               data := if r = 0 then Int.lor s.data (_BV ((s.dataIndex + 255) % 256)) else s.data,
               state := if (s.dataIndex + 255) % 256 = 0 then DELAYING_END else DELAYING } := by
  by_cases hr : r = 0 <;> by_cases hd : (s.dataIndex + 255) % 256 = 0 <;>
    simp only [hr, if_true, if_false] at he <;>
    simp [ISR, h, STANDBY, DELAYING, WAITING, DELAYING_END, he, hr, hd]

/-- A tick in phase Waiting whose sample equals the reference level: the counter
advances and, once it exceeds `IR_TIMEOUT`, the sentinel -1 is stored. -/
theorem ISR_waiting_level (r : Nat) (s : irVariables) (h : s.state = WAITING)
    (he : (if r = 0 then 1 else 0) = s.pinStateOld) :
    ISR r s = if 2 < (s.counter + 1) % 256 then
        { s with pinState := if r = 0 then 1 else 0, counter := (s.counter + 1) % 256,
                 data := -1, state := IDLE }
      else { s with pinState := if r = 0 then 1 else 0, counter := (s.counter + 1) % 256 } := by
  have he2 : s.pinStateOld = (if r = 0 then 1 else 0) := he.symm
  simp [ISR, h, STANDBY, DELAYING, WAITING, IDLE, IR_TIMEOUT, he2]

/-- A tick in phase DelayingEnd: the counter advances and, once it exceeds
`IR_DELAY`, the phase is Idle. -/
theorem ISR_delaying_end (r : Nat) (s : irVariables) (h : s.state = DELAYING_END) :
    ISR r s = if 3 < (s.counter + 1) % 256 then
        { s with pinState := if r = 0 then 1 else 0, counter := (s.counter + 1) % 256,
                 state := IDLE }
      else { s with pinState := if r = 0 then 1 else 0, counter := (s.counter + 1) % 256 } := by
  simp [ISR, h, STANDBY, DELAYING, WAITING, DELAYING_END, IR_DELAY]

/-- A tick in phase Idle, or at a state code outside 0..3: no `case` of the
`switch` applies and only `pinState` is written. -/
theorem ISR_other (r : Nat) (s : irVariables) (h0 : s.state ≠ STANDBY) (h1 : s.state ≠ DELAYING)
    (h2 : s.state ≠ WAITING) (h3 : s.state ≠ DELAYING_END) :
    ISR r s = { s with pinState := if r = 0 then 1 else 0 } := by
  simp [ISR, h0, h1, h2, h3]

/-! ## The invariant of the reachable states -/

/-- For bit positions up to 12 the mask `_BV i` is the plain power of two. -/
theorem BV_small (i : Nat) (hi : i ≤ 12) : _BV i = ((2 ^ i : Nat) : Int) := by
  interval_cases i <;> decide

/-- Setting bit `i` of a non-negative word whose bits 0..`i` are clear adds `2 ^ i`. -/
theorem lor_BV (d : Int) (i : Nat) (hi : i ≤ 12) (h0 : 0 ≤ d) (hm : d % 2 ^ (i + 1) = 0) :
    Int.lor d (_BV i) = d + 2 ^ i := by
  obtain ⟨n, rfl⟩ := Int.eq_ofNat_of_zero_le h0
  rw [BV_small i hi]
  have hn : n % 2 ^ (i + 1) = 0 := by exact_mod_cast hm
  have hn2 : n = 2 ^ (i + 1) * (n / 2 ^ (i + 1)) := by
    have := Nat.div_add_mod n (2 ^ (i + 1))
    omega
  show ((n ||| 2 ^ i : Nat) : Int) = _
  have hlt : 2 ^ i < 2 ^ (i + 1) := Nat.pow_lt_pow_right (by norm_num) (by omega)
  have := Nat.mul_add_lt_is_or hlt (n / 2 ^ (i + 1))
  rw [← hn2] at this
  rw [← this]
  push_cast
  rfl

/-- The stored sample `!digitalRead(pin)` is 0 or 1. -/
theorem sample_le (r : Nat) : (if r = 0 then 1 else 0 : Nat) ≤ 1 := by
  split <;> omega

/-- Arithmetic of one received bit: the word stays below `2 ^ 13` and its bits
below the new `dataIndex` stay clear. -/
theorem word_step (d : Int) (i : Nat) (hi : i ≤ 12) (h0 : 0 ≤ d) (h1 : d < 8192)
    (hm : d % 2 ^ (i + 1) = 0) :
    d % 2 ^ i = 0 ∧ 0 ≤ d + 2 ^ i ∧ d + 2 ^ i < 8192 ∧ (d + 2 ^ i) % 2 ^ i = 0 := by
  interval_cases i <;> norm_num at hm ⊢ <;> omega

/-- The invariant is preserved by a tick, at any raw pin read. -/
theorem Inv_ISR (r : Nat) (s : irVariables) (h : Inv s) : Inv (ISR r s) := by
  obtain ⟨h1, h2, h3⟩ := h
  have hp := sample_le r
  rcases h3 with ⟨hs, hc, hd, hi⟩ | ⟨hs, hc, hi1, hi2, hd0, hd1, hdm⟩ |
    ⟨hs, hc, hi1, hi2, hd0, hd1, hdm⟩ | ⟨hs, hc, hi, hd0, hd1⟩ | ⟨hs, hd⟩
  · rw [ISR_standby r s hs]
    split
    · refine ⟨by simp, h2, Or.inr (Or.inl ?_)⟩
      simp [hc, hd, hi]
    · exact ⟨by simp, h2, Or.inl ⟨hs, hc, hd, hi⟩⟩
  · rw [ISR_delaying r s hs]
    split
    · exact ⟨hp, hp, Or.inr (Or.inr (Or.inl ⟨rfl, Nat.zero_le _, hi1, hi2, hd0, hd1, hdm⟩))⟩
    · refine ⟨hp, h2, Or.inr (Or.inl ⟨hs, ?_, hi1, hi2, hd0, hd1, hdm⟩)⟩
      show (s.counter + 1) % 256 ≤ 3
      omega
  · by_cases he : (if r = 0 then 1 else 0) = s.pinStateOld
    · rw [ISR_waiting_level r s hs he]
      split
      · exact ⟨hp, h2, Or.inr (Or.inr (Or.inr (Or.inr ⟨rfl, Or.inl rfl⟩)))⟩
      · refine ⟨hp, h2, Or.inr (Or.inr (Or.inl ⟨hs, ?_, hi1, hi2, hd0, hd1, hdm⟩))⟩
        show (s.counter + 1) % 256 ≤ 2
        omega
    · rw [ISR_waiting_edge r s hs he]
      obtain ⟨i, hi⟩ : ∃ i, s.dataIndex = i + 1 := ⟨s.dataIndex - 1, by omega⟩
      have hi12 : i ≤ 12 := by omega
      have hidx : (s.dataIndex + 255) % 256 = i := by omega
      rw [hi] at hdm
      obtain ⟨q1, q2, q3, q4⟩ := word_step s.data i hi12 hd0 hd1 hdm
      have hl := lor_BV s.data i hi12 hd0 hdm
      simp only [hidx]
      by_cases hr : r = 0 <;> by_cases hz : i = 0
      · simp only [if_pos hr, if_pos hz, hl]
        exact ⟨le_refl _, h2,
          Or.inr (Or.inr (Or.inr (Or.inl ⟨rfl, Nat.zero_le _, hz, q2, q3⟩)))⟩
      · simp only [if_pos hr, if_neg hz, hl]
        exact ⟨le_refl _, h2, Or.inr (Or.inl ⟨rfl, Nat.zero_le _, Nat.pos_of_ne_zero hz,
          Nat.le_succ_of_le hi12, q2, q3, q4⟩)⟩
      · simp only [if_neg hr, if_pos hz]
        exact ⟨Nat.zero_le _, h2,
          Or.inr (Or.inr (Or.inr (Or.inl ⟨rfl, Nat.zero_le _, hz, hd0, hd1⟩)))⟩
      · simp only [if_neg hr, if_neg hz]
        exact ⟨Nat.zero_le _, h2, Or.inr (Or.inl ⟨rfl, Nat.zero_le _, Nat.pos_of_ne_zero hz,
          Nat.le_succ_of_le hi12, hd0, hd1, q1⟩)⟩
  · rw [ISR_delaying_end r s hs]
    split
    · refine ⟨hp, h2, Or.inr (Or.inr (Or.inr (Or.inr ⟨rfl, Or.inr ⟨hi, hd0, ?_⟩⟩)))⟩
      show s.data ≤ 8191
      omega
    · refine ⟨hp, h2, Or.inr (Or.inr (Or.inr (Or.inl ⟨hs, ?_, hi, hd0, hd1⟩)))⟩
      show (s.counter + 1) % 256 ≤ 3
      omega
  · rw [ISR_other r s (by rw [hs]; decide) (by rw [hs]; decide) (by rw [hs]; decide)
      (by rw [hs]; decide)]
    exact ⟨hp, h2, Or.inr (Or.inr (Or.inr (Or.inr ⟨hs, hd⟩)))⟩

/-- The invariant holds in the initial record. -/
theorem Inv_ir : Inv ir := by
  simp [Inv, ir, STANDBY, IR_NUM_BITS]

/-- The invariant is preserved by `ir_begin()`, which writes only `pin`. -/
theorem Inv_ir_begin (irPin : Nat) (s : irVariables) (h : Inv s) : Inv (ir_begin irPin s) := h

/-- The invariant is preserved by `ir_data()`. -/
theorem Inv_ir_data (s : irVariables) (h : Inv s) : Inv (ir_data s).2 := by
  by_cases hs : s.state = IDLE
  · obtain ⟨h1, h2, _⟩ := h
    simp [ir_data, hs, Inv, STANDBY, IR_NUM_BITS, h1, h2]
  · simpa [ir_data, hs] using h

/-- Every reachable state satisfies the invariant. -/
theorem Reachable.inv {s : irVariables} (h : Reachable s) : Inv s := by
  induction h with
  | init => exact Inv_ir
  | tick r _ ih => exact Inv_ISR r _ ih
  | read _ ih => exact Inv_ir_data _ ih
  | begin p _ ih => exact Inv_ir_begin p _ ih

/-- The invariant is preserved by a tick at a logical level. -/
theorem Inv_step (l : Bool) (s : irVariables) (h : Inv s) : Inv (step l s) :=
  Inv_ISR _ s h

/-! ## Runs of ticks -/

/-- The empty run. -/
theorem run_nil (s : irVariables) : run [] s = s := rfl

/-- A run starts with its first tick. -/
theorem run_cons (l : Bool) (ls : List Bool) (s : irVariables) :
    run (l :: ls) s = run ls (step l s) := rfl

/-- A run of two lists of samples in a row. -/
theorem run_append (xs ys : List Bool) (s : irVariables) :
    run (xs ++ ys) s = run ys (run xs s) := by
  simp [run, List.foldl_append]

/-- The invariant is preserved by a run of ticks. -/
theorem Inv_run (ls : List Bool) (s : irVariables) (h : Inv s) : Inv (run ls s) := by
  induction ls generalizing s with
  | nil => exact h
  | cons l ls ih => exact ih _ (Inv_step l s h)

/-- A tick at a logical level leads from a reachable state to a reachable state. -/
theorem Reachable.step (l : Bool) {s : irVariables} (h : Reachable s) : Reachable (step l s) :=
  Reachable.tick _ h

/-- A run of ticks leads from a reachable state to a reachable state. -/
theorem Reachable.run (ls : List Bool) {s : irVariables} (h : Reachable s) :
    Reachable (run ls s) := by
  induction ls generalizing s with
  | nil => exact h
  | cons l ls ih => exact ih (h.step l)

/-- The stored sample of a tick at logical level `l`. -/
theorem sample_step (l : Bool) :
    (if (if l then 0 else 1 : Nat) = 0 then 1 else 0 : Nat) = levelVal l := by
  cases l <;> rfl

/-- In phase Idle a tick only refreshes `pinState`. -/
theorem step_idle (l : Bool) (s : irVariables) (h : s.state = IDLE) :
    step l s = { s with pinState := levelVal l } := by
  unfold step
  rw [ISR_other _ s (by rw [h]; decide) (by rw [h]; decide) (by rw [h]; decide)
    (by rw [h]; decide), sample_step]

/-- Idle is absorbing under ticks, which there keep `data`, `counter` and
`dataIndex`. -/
theorem run_idle (ls : List Bool) (s : irVariables) (h : s.state = IDLE) :
    (run ls s).state = IDLE ∧ (run ls s).data = s.data ∧
    (run ls s).counter = s.counter ∧ (run ls s).dataIndex = s.dataIndex := by
  induction ls generalizing s with
  | nil => exact ⟨h, rfl, rfl, rfl⟩
  | cons l ls ih =>
    rw [run_cons, step_idle l s h]
    exact ih _ h

/-! ## Bound on the ticks before Idle -/

/-- Outside Standby and Idle every tick strictly decreases the bound `remaining`
and does not lead to Standby. -/
theorem remaining_step (r : Nat) (s : irVariables) (h : Inv s) (h0 : s.state ≠ STANDBY)
    (h4 : s.state ≠ IDLE) :
    remaining (ISR r s) < remaining s ∧ (ISR r s).state ≠ STANDBY := by
  obtain ⟨h1, h2, h3⟩ := h
  rcases h3 with ⟨hs, -⟩ | ⟨hs, hc, hi1, hi2, -⟩ | ⟨hs, hc, hi1, hi2, -⟩ | ⟨hs, hc, hi, -⟩ |
    ⟨hs, -⟩
  · exact absurd hs h0
  · rw [ISR_delaying r s hs]
    split <;> simp [remaining, hs, STANDBY, DELAYING, WAITING] <;> omega
  · by_cases he : (if r = 0 then 1 else 0) = s.pinStateOld
    · rw [ISR_waiting_level r s hs he]
      split <;> simp [remaining, hs, STANDBY, DELAYING, WAITING, DELAYING_END, IDLE] <;> omega
    · rw [ISR_waiting_edge r s hs he]
      have hidx : (s.dataIndex + 255) % 256 = s.dataIndex - 1 := by omega
      rw [hidx]
      by_cases hz : s.dataIndex - 1 = 0 <;>
        simp [remaining, hs, hz, STANDBY, DELAYING, WAITING, DELAYING_END, IDLE] <;> omega
  · rw [ISR_delaying_end r s hs]
    split <;> simp [remaining, hs, STANDBY, DELAYING, WAITING, DELAYING_END, IDLE] <;> omega
  · exact absurd hs h4

/-- Outside Standby, the bound `remaining` is 0 only in phase Idle. -/
theorem remaining_zero (s : irVariables) (h : Inv s) (h0 : s.state ≠ STANDBY)
    (hr : remaining s = 0) : s.state = IDLE := by
  obtain ⟨h1, h2, h3⟩ := h
  rcases h3 with ⟨hs, -⟩ | ⟨hs, hc, hi1, hi2, -⟩ | ⟨hs, hc, hi1, hi2, -⟩ | ⟨hs, hc, hi, -⟩ |
    ⟨hs, -⟩
  · exact absurd hs h0
  · simp [remaining, hs] at hr; omega
  · simp [remaining, hs, DELAYING, WAITING] at hr; omega
  · simp [remaining, hs, DELAYING, WAITING, DELAYING_END] at hr; omega
  · exact hs

/-- Outside Standby, a run of at least `remaining s` ticks ends in phase Idle. -/
theorem run_reaches_idle (ls : List Bool) (s : irVariables) (h : Inv s) (h0 : s.state ≠ STANDBY)
    (hr : remaining s ≤ ls.length) : (run ls s).state = IDLE := by
  induction ls generalizing s with
  | nil => exact remaining_zero s h h0 (by simpa using hr)
  | cons l ls ih =>
    rw [run_cons]
    by_cases h4 : s.state = IDLE
    · rw [step_idle l s h4]
      exact (run_idle ls { s with pinState := levelVal l } h4).1
    · obtain ⟨q1, q2⟩ := remaining_step (if l then 0 else 1) s h h0 h4
      exact ih _ (Inv_step l s h) q2 (by
        have : remaining (step l s) < remaining s := q1
        simp at hr; omega)

/-! ## Ticks and runs at logical levels, phase by phase -/

/-- A tick at a logical level in phase Delaying. -/
theorem step_delaying (l : Bool) (s : irVariables) (h : s.state = DELAYING) :
    step l s = if 3 < (s.counter + 1) % 256 then
        { s with pinState := levelVal l, pinStateOld := levelVal l, counter := 0,
                 state := WAITING }
      else { s with pinState := levelVal l, counter := (s.counter + 1) % 256 } := by
  unfold step
  rw [ISR_delaying _ s h, sample_step]

/-- A tick at a logical level in phase Waiting that differs from the reference
level: the bit `l` is received at position `dataIndex - 1`. -/
theorem step_waiting_edge (l : Bool) (s : irVariables) (h : s.state = WAITING)
    (he : levelVal l ≠ s.pinStateOld) :
    step l s =
      { s with pinState := levelVal l,
               dataIndex := (s.dataIndex + 255) % 256, counter := 0,
               data := if l then Int.lor s.data (_BV ((s.dataIndex + 255) % 256)) else s.data,
               state := if (s.dataIndex + 255) % 256 = 0 then DELAYING_END else DELAYING } := by
  unfold step
  rw [ISR_waiting_edge _ s h (by rw [sample_step]; exact he), sample_step]
  cases l <;> rfl

/-- Four ticks in phase Delaying, starting with `counter = 0`, lead to phase
Waiting with the fourth sample as reference level. -/
theorem run_delay (l1 l2 l3 l4 : Bool) (s : irVariables) (h : s.state = DELAYING)
    (hc : s.counter = 0) :
    run [l1, l2, l3, l4] s =
      { s with pinState := levelVal l4, pinStateOld := levelVal l4, counter := 0,
               state := WAITING } := by
  obtain ⟨pin, st, d, ps, pso, c, di⟩ := s
  simp only at h hc
  subst h hc
  simp [run, step, ISR, levelVal, STANDBY, DELAYING, WAITING, IR_DELAY]

/-- The bits of `w` from position `n` upwards, split at bit `n`. -/
theorem high_bits (w n : Nat) :
    2 ^ n * (w / 2 ^ n) = 2 ^ (n + 1) * (w / 2 ^ (n + 1)) + (if w.testBit n then 2 ^ n else 0) := by
  have h1 : w / 2 ^ (n + 1) = w / 2 ^ n / 2 := by
    rw [pow_succ, Nat.div_div_eq_div_mul]
  rw [h1, Nat.testBit_to_div_mod]
  generalize w / 2 ^ n = q
  have hq := Nat.div_add_mod q 2
  rcases Nat.mod_two_eq_zero_or_one q with h | h
  · have : q = 2 * (q / 2) := by omega
    conv_lhs => rw [this]
    simp only [h]
    simp
    ring
  · have : q = 2 * (q / 2) + 1 := by omega
    conv_lhs => rw [this]
    simp only [h]
    simp
    ring

/-- One bit cell: from Delaying with `counter = 0`, `dataIndex = n + 1` and the
bits of `w` above `n` assembled, the five samples of bit `n` assemble bit `n`. -/
theorem run_cell (a : Nat → Bool) (w n : Nat) (s : irVariables) (hn : n ≤ 12)
    (hs : s.state = DELAYING) (hc : s.counter = 0) (hi : s.dataIndex = n + 1)
    (hd : s.data = ((2 ^ (n + 1) * (w / 2 ^ (n + 1)) : Nat) : Int)) :
    (run (cell a w n) s).state = (if n = 0 then DELAYING_END else DELAYING) ∧
    (run (cell a w n) s).counter = 0 ∧ (run (cell a w n) s).dataIndex = n ∧
    (run (cell a w n) s).data = ((2 ^ n * (w / 2 ^ n) : Nat) : Int) := by
  have hidx : (n + 1 + 255) % 256 = n := by omega
  have hlor : w.testBit n = true →
      Int.lor ((2 ^ (n + 1) * (w / 2 ^ (n + 1)) : Nat) : Int) (_BV n)
        = ((2 ^ n * (w / 2 ^ n) : Nat) : Int) := by
    intro hb
    rw [lor_BV _ n hn (Int.natCast_nonneg _) (by
      rw [Nat.cast_mul]; push_cast; exact Int.mul_emod_right _ _), high_bits w n, hb]
    push_cast
    simp
  have hsame : w.testBit n = false →
      ((2 ^ (n + 1) * (w / 2 ^ (n + 1)) : Nat) : Int) = ((2 ^ n * (w / 2 ^ n) : Nat) : Int) := by
    intro hb
    rw [high_bits w n, hb]
    simp
  obtain ⟨pin, st, d, ps, pso, c, di⟩ := s
  simp only at hs hc hi hd
  subst hs hc hi hd
  simp only [cell]
  rw [show ∀ (l1 l2 l3 l4 l5 : Bool) (t : irVariables),
      run [l1, l2, l3, l4, l5] t = run [l5] (run [l1, l2, l3, l4] t) from fun _ _ _ _ _ _ => rfl,
    run_delay _ _ _ _ _ rfl rfl, run_cons, run_nil,
    step_waiting_edge _ _ rfl (by cases w.testBit n <;> simp [levelVal])]
  refine ⟨?_, rfl, ?_, ?_⟩
  · show (if (n + 1 + 255) % 256 = 0 then DELAYING_END else DELAYING) = _
    rw [hidx]
  · exact hidx
  · show (if w.testBit n = true then
        Int.lor ((2 ^ (n + 1) * (w / 2 ^ (n + 1)) : Nat) : Int) (_BV ((n + 1 + 255) % 256))
      else ((2 ^ (n + 1) * (w / 2 ^ (n + 1)) : Nat) : Int)) = _
    rw [hidx]
    cases hb : w.testBit n
    · simpa using hsame hb
    · simpa using hlor hb

/-- A tick in phase Waiting at the reference level: the counter advances and, past
`IR_TIMEOUT`, the sentinel is stored and the phase becomes Idle. -/
theorem step_waiting_level (l : Bool) (s : irVariables) (h : s.state = WAITING)
    (he : levelVal l = s.pinStateOld) :
    step l s = if 2 < (s.counter + 1) % 256 then
        { s with pinState := levelVal l, counter := (s.counter + 1) % 256,
                 data := -1, state := IDLE }
      else { s with pinState := levelVal l, counter := (s.counter + 1) % 256 } := by
  unfold step
  rw [ISR_waiting_level _ s h (by rw [sample_step]; exact he), sample_step]

/-- In phase Waiting with `counter ≤ 2`, a run of `3 - counter` or more ticks
at the reference level ends Idle with the sentinel. -/
theorem run_waiting_timeout (ls : List Bool) (s : irVariables) (h : s.state = WAITING)
    (hc : s.counter ≤ 2) (hl : ∀ l ∈ ls, levelVal l = s.pinStateOld)
    (hn : 3 ≤ ls.length + s.counter) :
    (run ls s).state = IDLE ∧ (run ls s).data = -1 := by
  induction ls generalizing s with
  | nil => simp at hn; omega
  | cons l ls ih =>
    rw [run_cons, step_waiting_level l s h (hl l (List.mem_cons_self _ _))]
    split
    · have := run_idle ls
        { s with pinState := levelVal l, counter := (s.counter + 1) % 256,
                 data := -1, state := IDLE } rfl
      exact ⟨this.1, this.2.1⟩
    · refine ih { s with pinState := levelVal l, counter := (s.counter + 1) % 256 } h ?_ ?_ ?_
      · show (s.counter + 1) % 256 ≤ 2
        omega
      · intro l2 hl2
        exact hl l2 (List.mem_cons_of_mem _ hl2)
      · show 3 ≤ ls.length + (s.counter + 1) % 256
        simp at hn
        omega

/-- A tick in phase Standby: the phase becomes Delaying on level `true`, and
nothing but `pinState` is written on level `false`. -/
theorem step_standby (l : Bool) (s : irVariables) (h : s.state = STANDBY) :
    step l s = if l then { s with pinState := 1, state := DELAYING }
      else { s with pinState := 0 } := by
  unfold step
  rw [ISR_standby _ s h]
  cases l <;> simp

/-- Ticks at level `false` in phase Standby keep the phase and the counters. -/
theorem run_standby_false (n : Nat) (s : irVariables) (h : s.state = STANDBY) :
    (run (List.replicate n false) s).state = STANDBY ∧
    (run (List.replicate n false) s).data = s.data ∧
    (run (List.replicate n false) s).counter = s.counter ∧
    (run (List.replicate n false) s).dataIndex = s.dataIndex := by
  induction n generalizing s with
  | zero => exact ⟨h, rfl, rfl, rfl⟩
  | succ n ih =>
    rw [List.replicate_succ, run_cons, step_standby false s h]
    exact ih { s with pinState := 0 } h

/-- A tick in phase DelayingEnd or Idle keeps `data` and `dataIndex` and leads
to DelayingEnd or Idle. -/
theorem step_end_or_idle (l : Bool) (s : irVariables)
    (h : s.state = DELAYING_END ∨ s.state = IDLE) :
    (step l s).data = s.data ∧ (step l s).dataIndex = s.dataIndex ∧
    ((step l s).state = DELAYING_END ∨ (step l s).state = IDLE) := by
  rcases h with h | h
  · unfold step
    rw [ISR_delaying_end _ s h]
    split
    · exact ⟨rfl, rfl, Or.inr rfl⟩
    · exact ⟨rfl, rfl, Or.inl h⟩
  · rw [step_idle l s h]
    exact ⟨rfl, rfl, Or.inr h⟩

/-- A run of ticks from DelayingEnd or Idle keeps `data` and `dataIndex` and ends
in DelayingEnd or Idle. -/
theorem run_end_or_idle (ls : List Bool) (s : irVariables)
    (h : s.state = DELAYING_END ∨ s.state = IDLE) :
    (run ls s).data = s.data ∧ (run ls s).dataIndex = s.dataIndex ∧
    ((run ls s).state = DELAYING_END ∨ (run ls s).state = IDLE) := by
  induction ls generalizing s with
  | nil => exact ⟨rfl, rfl, h⟩
  | cons l ls ih =>
    obtain ⟨q1, q2, q3⟩ := step_end_or_idle l s h
    obtain ⟨r1, r2, r3⟩ := ih (step l s) q3
    rw [run_cons]
    exact ⟨r1.trans q1, r2.trans q2, r3⟩

/-! ## A well-timed frame -/

/-- The cells of `n` bits have `5 * n` samples. -/
theorem length_cells (a : Nat → Bool) (w n : Nat) : (cells a w n).length = 5 * n := by
  induction n with
  | zero => rfl
  | succ n ih => simp [cells, cell, ih]; omega

/-- The cells of bits `n - 1`, ..., `0`: from `dataIndex = n` with the bits of `w`
from `n` upwards assembled, the run ends in DelayingEnd with `data = w`. -/
theorem run_cells (a : Nat → Bool) (w n : Nat) (s : irVariables) (hn : n ≤ 13)
    (hs : s.state = (if n = 0 then DELAYING_END else DELAYING)) (hc : s.counter = 0)
    (hi : s.dataIndex = n) (hd : s.data = ((2 ^ n * (w / 2 ^ n) : Nat) : Int)) :
    (run (cells a w n) s).state = DELAYING_END ∧ (run (cells a w n) s).counter = 0 ∧
    (run (cells a w n) s).dataIndex = 0 ∧ (run (cells a w n) s).data = (w : Int) := by
  induction n generalizing s with
  | zero =>
    refine ⟨hs, hc, hi, ?_⟩
    show s.data = _
    rw [hd]
    simp
  | succ n ih =>
    obtain ⟨q1, q2, q3, q4⟩ := run_cell a w n s (by omega) (by simpa using hs) hc hi hd
    rw [cells, run_append]
    exact ih _ (by omega) q1 q2 q3 q4

/-- Ticks in phase DelayingEnd, starting with `counter = 0`: three of them stay
in DelayingEnd, the fourth leads to Idle; `data` and `dataIndex` are kept. -/
theorem run_end (l1 l2 l3 l4 : Bool) (s : irVariables) (h : s.state = DELAYING_END)
    (hc : s.counter = 0) :
    run [l1, l2, l3] s = { s with pinState := levelVal l3, counter := 3 } ∧
    run [l1, l2, l3, l4] s = { s with pinState := levelVal l4, counter := 4, state := IDLE } := by
  obtain ⟨pin, st, d, ps, pso, c, di⟩ := s
  simp only at h hc
  subst h hc
  constructor <;>
    simp [run, step, ISR, levelVal, STANDBY, DELAYING, WAITING, DELAYING_END, IDLE, IR_DELAY]

/-- If the phase is not Idle after a run of ticks, it was not Idle after any
prefix of the run. -/
theorem not_idle_take (ls : List Bool) (s : irVariables) (h : (run ls s).state ≠ IDLE)
    (k : Nat) : (run (ls.take k) s).state ≠ IDLE := by
  intro hk
  apply h
  rw [← List.take_append_drop k ls, run_append]
  exact (run_idle _ _ hk).1

/-- A well-timed frame fed to an armed decoder (Standby, `counter = 0`,
`data = 0`, `dataIndex = 13`): the phase is not Idle before the 70th tick, and
after it the phase is Idle with `data = w` and `dataIndex = 0`. -/
theorem run_frame (a : Nat → Bool) (w : Nat) (s : irVariables) (hw : w < 8192)
    (hs : s.state = STANDBY) (hc : s.counter = 0) (hd : s.data = 0) (hi : s.dataIndex = 13) :
    (∀ k, k < 70 → (run ((frame a w).take k) s).state ≠ IDLE) ∧
    (run (frame a w) s).state = IDLE ∧ (run (frame a w) s).data = (w : Int) ∧
    (run (frame a w) s).dataIndex = 0 := by
  have h1 : step true s = { s with pinState := 1, state := DELAYING } := by
    rw [step_standby true s hs]; rfl
  obtain ⟨q1, q2, q3, q4⟩ := run_cells a w 13 (step true s) (le_refl _) (by rw [h1]; rfl)
    (by rw [h1]; exact hc) (by rw [h1]; exact hi) (by
      rw [h1, Nat.div_eq_of_lt (by norm_num; exact hw)]
      simpa using hd)
  obtain ⟨e3, e4⟩ := run_end (a 39) (a 40) (a 41) (a 42) _ q1 q2
  have hfull : run (frame a w) s = run (tail a) (run (cells a w 13) (step true s)) := by
    rw [frame, run_cons, run_append]
  have h69 : frame a w = (true :: (cells a w 13 ++ [a 39, a 40, a 41])) ++ [a 42] := by
    simp [frame, tail]
  have hlen : (true :: (cells a w 13 ++ [a 39, a 40, a 41])).length = 69 := by
    simp [length_cells]
  have hrun69 : run (true :: (cells a w 13 ++ [a 39, a 40, a 41])) s
      = run [a 39, a 40, a 41] (run (cells a w 13) (step true s)) := by
    rw [run_cons, run_append]
  refine ⟨?_, ?_, ?_, ?_⟩
  · intro k hk
    rw [h69, List.take_append_of_le_length (by rw [hlen]; omega)]
    apply not_idle_take
    rw [hrun69, e3]
    dsimp only
    rw [q1]
    decide
  · rw [hfull, tail, e4]
  · rw [hfull, tail, e4]
    dsimp only
    exact q4
  · rw [hfull, tail, e4]
    dsimp only
    exact q3

/-! ## Records that agree on what is read back -/

/-- Agreement is preserved by a tick at the same raw pin read. -/
theorem Agree_ISR (r : Nat) (s t : irVariables) (h : Agree s t) : Agree (ISR r s) (ISR r t) := by
  obtain ⟨h1, h2, h3, h4, h5⟩ := h
  by_cases c0 : s.state = STANDBY
  · rw [ISR_standby r s c0, ISR_standby r t (h1 ▸ c0)]
    split
    · exact ⟨rfl, h2, h3, h4, fun (hw : DELAYING = WAITING) => absurd hw (by decide)⟩
    · exact ⟨h1, h2, h3, h4, fun hw => absurd (c0.symm.trans hw) (by decide)⟩
  by_cases c1 : s.state = DELAYING
  · rw [ISR_delaying r s c1, ISR_delaying r t (h1 ▸ c1), ← h3]
    split
    · exact ⟨rfl, h2, rfl, h4, fun _ => rfl⟩
    · exact ⟨h1, h2, rfl, h4, fun hw => absurd (c1.symm.trans hw) (by decide)⟩
  by_cases c2 : s.state = WAITING
  · have hp := h5 c2
    by_cases he : (if r = 0 then 1 else 0) = s.pinStateOld
    · rw [ISR_waiting_level r s c2 he, ISR_waiting_level r t (h1 ▸ c2) (hp ▸ he), ← h3]
      split
      · exact ⟨rfl, rfl, rfl, h4, fun (hw : IDLE = WAITING) => absurd hw (by decide)⟩
      · exact ⟨h1, h2, rfl, h4, fun _ => hp⟩
    · rw [ISR_waiting_edge r s c2 he, ISR_waiting_edge r t (h1 ▸ c2) (hp ▸ he), ← h4, ← h2]
      refine ⟨rfl, rfl, rfl, rfl, fun _ => hp⟩
  by_cases c3 : s.state = DELAYING_END
  · rw [ISR_delaying_end r s c3, ISR_delaying_end r t (h1 ▸ c3), ← h3]
    split
    · exact ⟨rfl, h2, rfl, h4, fun (hw : IDLE = WAITING) => absurd hw (by decide)⟩
    · exact ⟨h1, h2, rfl, h4, fun hw => absurd hw c2⟩
  · rw [ISR_other r s c0 c1 c2 c3, ISR_other r t (h1 ▸ c0) (h1 ▸ c1) (h1 ▸ c2) (h1 ▸ c3)]
    exact ⟨h1, h2, h3, h4, fun hw => absurd hw c2⟩

/-- The result of `ir_data()` in phase Idle. -/
theorem ir_data_of_idle (s : irVariables) (h : s.state = IDLE) :
    ir_data s =
      (s.data, { s with dataIndex := 13, counter := 0, data := 0, state := STANDBY }) := by
  simp [ir_data, h, IR_NUM_BITS]

/-- The result of `ir_data()` in any phase other than Idle. -/
theorem ir_data_of_not_idle (s : irVariables) (h : s.state ≠ IDLE) : ir_data s = (0, s) := by
  simp [ir_data, h]

/-- On agreeing records `ir_data()` returns the same value and keeps agreement. -/
theorem Agree_ir_data (s t : irVariables) (h : Agree s t) :
    (ir_data s).1 = (ir_data t).1 ∧ Agree (ir_data s).2 (ir_data t).2 := by
  obtain ⟨h1, h2, h3, h4, h5⟩ := h
  by_cases c : s.state = IDLE
  · rw [ir_data_of_idle s c, ir_data_of_idle t (h1 ▸ c)]
    exact ⟨h2, rfl, rfl, rfl, rfl, fun (hw : STANDBY = WAITING) => absurd hw (by decide)⟩
  · rw [ir_data_of_not_idle s c, ir_data_of_not_idle t (h1 ▸ c)]
    exact ⟨rfl, h1, h2, h3, h4, h5⟩

/-- On agreeing records an operation returns the same value and keeps agreement. -/
theorem Agree_apply (op : Op) (s t : irVariables) (h : Agree s t) :
    (op.apply s).1 = (op.apply t).1 ∧ Agree (op.apply s).2 (op.apply t).2 := by
  cases op with
  | tick l => exact ⟨rfl, Agree_ISR _ s t h⟩
  | read =>
    obtain ⟨q1, q2⟩ := Agree_ir_data s t h
    exact ⟨by simp [Op.apply, q1], q2⟩

/-- Agreeing records are observed alike along every sequence of operations. -/
theorem Agree_observe (ops : List Op) (s t : irVariables) (h : Agree s t) :
    observe ops s = observe ops t := by
  induction ops generalizing s t with
  | nil => rfl
  | cons op ops ih =>
    obtain ⟨q1, q2⟩ := Agree_apply op s t h
    obtain ⟨a1, a2, a3, a4, -⟩ := q2
    simp only [observe]
    rw [q1, a1, a2, a3, a4, ih _ _ ⟨a1, a2, a3, a4, (Agree_apply op s t h).2.2.2.2.2⟩]

/-! ## Further facts about reachable states and received bits -/

/-- The state code of a record that satisfies the invariant is one of 0..4. -/
theorem Inv_state (s : irVariables) (h : Inv s) :
    s.state = STANDBY ∨ s.state = DELAYING ∨ s.state = WAITING ∨ s.state = DELAYING_END ∨
      s.state = IDLE := by
  obtain ⟨-, -, h3⟩ := h
  rcases h3 with ⟨hs, -⟩ | ⟨hs, -⟩ | ⟨hs, -⟩ | ⟨hs, -⟩ | ⟨hs, -⟩
  · exact Or.inl hs
  · exact Or.inr (Or.inl hs)
  · exact Or.inr (Or.inr (Or.inl hs))
  · exact Or.inr (Or.inr (Or.inr (Or.inl hs)))
  · exact Or.inr (Or.inr (Or.inr (Or.inr hs)))

/-- In phase Standby of a record that satisfies the invariant the decoder is armed:
`counter = 0`, `data = 0`, `dataIndex = 13`. -/
theorem Inv_standby (s : irVariables) (h : Inv s) (hs : s.state = STANDBY) :
    s.counter = 0 ∧ s.data = 0 ∧ s.dataIndex = 13 := by
  obtain ⟨-, -, h3⟩ := h
  rcases h3 with ⟨-, q⟩ | ⟨hs2, -⟩ | ⟨hs2, -⟩ | ⟨hs2, -⟩ | ⟨hs2, -⟩
  · exact q
  · rw [hs] at hs2; exact absurd hs2 (by decide)
  · rw [hs] at hs2; exact absurd hs2 (by decide)
  · rw [hs] at hs2; exact absurd hs2 (by decide)
  · rw [hs] at hs2; exact absurd hs2 (by decide)

/-- In phase Waiting of a record that satisfies the invariant, between 1 and 13
bits remain and the word is a 13-bit value with the bits below `dataIndex` clear. -/
theorem Inv_waiting (s : irVariables) (h : Inv s) (hs : s.state = WAITING) :
    s.counter ≤ 2 ∧ 1 ≤ s.dataIndex ∧ s.dataIndex ≤ 13 ∧
      0 ≤ s.data ∧ s.data < 8192 ∧ s.data % 2 ^ s.dataIndex = 0 := by
  obtain ⟨-, -, h3⟩ := h
  rcases h3 with ⟨hs2, -⟩ | ⟨hs2, -⟩ | ⟨-, q⟩ | ⟨hs2, -⟩ | ⟨hs2, -⟩
  · rw [hs] at hs2; exact absurd hs2 (by decide)
  · rw [hs] at hs2; exact absurd hs2 (by decide)
  · exact q
  · rw [hs] at hs2; exact absurd hs2 (by decide)
  · rw [hs] at hs2; exact absurd hs2 (by decide)

/-- The phase change of a tick from a record that satisfies the invariant is one
of the edges of `TickEdge`. -/
theorem Inv_tick_edge (l : Bool) (s : irVariables) (h : Inv s) :
    TickEdge s.state (step l s).state := by
  unfold TickEdge
  rcases Inv_state s h with hs | hs | hs | hs | hs
  · rw [step_standby l s hs]
    cases l
    · exact Or.inl ⟨hs, hs⟩
    · exact Or.inr (Or.inl ⟨hs, rfl⟩)
  · rw [step_delaying l s hs]
    split
    · exact Or.inr (Or.inr (Or.inr (Or.inl ⟨hs, rfl⟩)))
    · exact Or.inr (Or.inr (Or.inl ⟨hs, hs⟩))
  · by_cases he : levelVal l = s.pinStateOld
    · rw [step_waiting_level l s hs he]
      split
      · exact Or.inr (Or.inr (Or.inr (Or.inr (Or.inr (Or.inr (Or.inr (Or.inl ⟨hs, rfl⟩)))))))
      · exact Or.inr (Or.inr (Or.inr (Or.inr (Or.inl ⟨hs, hs⟩))))
    · rw [step_waiting_edge l s hs he]
      by_cases hz : (s.dataIndex + 255) % 256 = 0
      · exact Or.inr (Or.inr (Or.inr (Or.inr (Or.inr (Or.inr (Or.inl ⟨hs, if_pos hz⟩))))))
      · exact Or.inr (Or.inr (Or.inr (Or.inr (Or.inr (Or.inl ⟨hs, if_neg hz⟩)))))
  · rcases step_end_or_idle l s (Or.inl hs) with ⟨-, -, q | q⟩
    · exact Or.inr (Or.inr (Or.inr (Or.inr (Or.inr (Or.inr (Or.inr (Or.inr
        (Or.inl ⟨hs, q⟩))))))))
    · exact Or.inr (Or.inr (Or.inr (Or.inr (Or.inr (Or.inr (Or.inr (Or.inr
        (Or.inr (Or.inl ⟨hs, q⟩)))))))))
  · rw [step_idle l s hs]
    exact Or.inr (Or.inr (Or.inr (Or.inr (Or.inr (Or.inr (Or.inr (Or.inr
        (Or.inr (Or.inr ⟨hs, hs⟩)))))))))

/-- A tick keeps `dataIndex` or, when a bit is received, lowers it by one. -/
theorem ISR_dataIndex (r : Nat) (s : irVariables) (h : Inv s) :
    (ISR r s).dataIndex = s.dataIndex ∨ (ISR r s).dataIndex + 1 = s.dataIndex := by
  by_cases c2 : s.state = WAITING
  · by_cases he : (if r = 0 then 1 else 0) = s.pinStateOld
    · rw [ISR_waiting_level r s c2 he]
      split <;> exact Or.inl rfl
    · rw [ISR_waiting_edge r s c2 he]
      obtain ⟨-, h1, h2, -⟩ := Inv_waiting s h c2
      right
      show (s.dataIndex + 255) % 256 + 1 = s.dataIndex
      omega
  · left
    by_cases c0 : s.state = STANDBY
    · rw [ISR_standby r s c0]
      split <;> rfl
    by_cases c1 : s.state = DELAYING
    · rw [ISR_delaying r s c1]
      split <;> rfl
    by_cases c3 : s.state = DELAYING_END
    · rw [ISR_delaying_end r s c3]
      split <;> rfl
    · rw [ISR_other r s c0 c1 c2 c3]

/-- In every reachable state at most 13 bits remain. -/
theorem Reachable.dataIndex_le {s : irVariables} (h : Reachable s) : s.dataIndex ≤ 13 := by
  induction h with
  | init => exact le_refl _
  | @tick r s hs ih =>
    rcases ISR_dataIndex r s hs.inv with q | q <;> omega
  | @read s hs ih =>
    by_cases c : s.state = IDLE
    · rw [ir_data_of_idle s c]
    · rw [ir_data_of_not_idle s c]
      exact ih
  | begin p _ ih => exact ih

/-- Up to three ticks in phase DelayingEnd that start with `counter = 0` stay in
DelayingEnd. -/
theorem run_end_short (ls : List Bool) (s : irVariables) (h : s.state = DELAYING_END)
    (hc : ls.length + s.counter ≤ 3) :
    (run ls s).state = DELAYING_END ∧ (run ls s).counter = ls.length + s.counter := by
  induction ls generalizing s with
  | nil => exact ⟨h, by rw [run_nil]; simp⟩
  | cons l ls ih =>
    simp only [List.length_cons] at hc
    have hstep : step l s = { s with pinState := levelVal l, counter := s.counter + 1 } := by
      unfold step
      rw [ISR_delaying_end _ s h, sample_step]
      have h1 : (s.counter + 1) % 256 = s.counter + 1 := by omega
      rw [h1, if_neg (by omega)]
    rw [run_cons, hstep]
    obtain ⟨q1, q2⟩ := ih { s with pinState := levelVal l, counter := s.counter + 1 } h
      (by show ls.length + (s.counter + 1) ≤ 3; omega)
    refine ⟨q1, ?_⟩
    rw [q2]
    show ls.length + (s.counter + 1) = (l :: ls).length + s.counter
    simp only [List.length_cons]
    omega

/-- A non-negative word whose bits 0..`i` are clear has bit `i` clear. -/
theorem testBit_clear (d : Int) (i : Nat) (h0 : 0 ≤ d) (hm : d % 2 ^ (i + 1) = 0) :
    Int.testBit d i = false := by
  obtain ⟨n, rfl⟩ := Int.eq_ofNat_of_zero_le h0
  have hn : n % 2 ^ (i + 1) = 0 := by exact_mod_cast hm
  show Nat.testBit n i = false
  rw [Nat.testBit_to_div_mod]
  have h2 : n = 2 ^ i * (2 * (n / 2 ^ (i + 1))) := by
    have := Nat.div_add_mod n (2 ^ (i + 1))
    rw [hn, pow_succ] at this
    rw [pow_succ]
    nlinarith
  have h3 : n / 2 ^ i = 2 * (n / 2 ^ (i + 1)) := by
    conv_lhs => rw [h2]
    exact Nat.mul_div_cancel_left _ (by positivity)
  rw [h3]
  simp

/-- The number written by a list of bits followed by one more bit. -/
theorem bitsVal_snoc (bs : List Bool) (b : Bool) :
    bitsVal (bs ++ [b]) = 2 * bitsVal bs + (if b then 1 else 0) := by
  simp [bitsVal, List.foldl_append]

/-- Bit `length - 1 - k` of the number written by `bs` is the `k`-th bit of `bs`. -/
theorem testBit_bitsVal (bs : List Bool) (k : Nat) (hk : k < bs.length) :
    (bitsVal bs).testBit (bs.length - 1 - k) = bs.getD k false := by
  induction bs using List.reverseRecOn generalizing k with
  | nil => simp at hk
  | append_singleton bs b ih =>
    rw [bitsVal_snoc]
    simp only [List.length_append, List.length_singleton] at hk ⊢
    have hb : (if b then 1 else 0 : Nat) ≤ 1 := by split <;> omega
    by_cases hk2 : k = bs.length
    · subst hk2
      have h0 : bs.length + 1 - 1 - bs.length = 0 := by omega
      rw [h0, Nat.testBit_zero]
      rw [List.getD_eq_getElem?_getD, List.getElem?_append_right (le_refl _)]
      cases b
      · simp
      · simp
        omega
    · have hlt : k < bs.length := by omega
      have h1 : bs.length + 1 - 1 - k = (bs.length - 1 - k) + 1 := by omega
      rw [h1, Nat.testBit_succ]
      have h2 : (2 * bitsVal bs + (if b then 1 else 0)) / 2 = bitsVal bs := by omega
      rw [h2, ih k hlt]
      rw [List.getD_eq_getElem?_getD, List.getD_eq_getElem?_getD,
        List.getElem?_append_left hlt]

/-- The bits received along a run that starts with one tick. -/
theorem received_cons (l : Bool) (ls : List Bool) (s : irVariables) :
    received (l :: ls) s = (receivedBit l s).toList ++ received ls (step l s) := rfl

/-- One tick keeps the word assembled from the bits received so far. -/
theorem Assembled_step (bs : List Bool) (l : Bool) (s : irVariables) (h : Inv s)
    (ha : Assembled bs s) : Assembled (bs ++ (receivedBit l s).toList) (step l s) := by
  by_cases c2 : s.state = WAITING
  · obtain ⟨-, h1, h2, hd0, hd1, hdm⟩ := Inv_waiting s h c2
    by_cases he : levelVal l = s.pinStateOld
    · have hr : receivedBit l s = none := by simp [receivedBit, he]
      rw [hr, step_waiting_level l s c2 he]
      split
      · intro hne
        exact absurd rfl hne
      · simpa using ha
    · have hr : receivedBit l s = some l := by simp [receivedBit, c2, he]
      obtain ⟨i, hi⟩ : ∃ i, s.dataIndex = i + 1 := ⟨s.dataIndex - 1, by omega⟩
      have hi12 : i ≤ 12 := by omega
      have hidx : (s.dataIndex + 255) % 256 = i := by omega
      obtain ⟨a1, a2⟩ := ha (by omega)
      rw [hi] at hdm a1 a2
      have hl := lor_BV s.data i hi12 hd0 hdm
      rw [hr, step_waiting_edge l s c2 he, hidx]
      intro _
      refine ⟨?_, ?_⟩
      · show (if l = true then Int.lor s.data (_BV i) else s.data)
          = ((bitsVal (bs ++ (some l).toList) * 2 ^ i : Nat) : Int)
        have e1 : (some l).toList = [l] := rfl
        rw [e1, bitsVal_snoc, hl, a1]
        cases l
        · simp [pow_succ]; ring
        · simp [pow_succ]; ring
      · show (bs ++ (some l).toList).length + i = 13
        simp at a2 ⊢
        omega
  · have hr : receivedBit l s = none := by simp [receivedBit, c2]
    rw [hr]
    have hkeep : (step l s).data = s.data ∧ (step l s).dataIndex = s.dataIndex := by
      by_cases c0 : s.state = STANDBY
      · rw [step_standby l s c0]
        cases l <;> exact ⟨rfl, rfl⟩
      by_cases c1 : s.state = DELAYING
      · rw [step_delaying l s c1]
        split <;> exact ⟨rfl, rfl⟩
      by_cases c3 : s.state = DELAYING_END
      · obtain ⟨q1, q2, -⟩ := step_end_or_idle l s (Or.inl c3)
        exact ⟨q1, q2⟩
      · unfold step
        rw [ISR_other _ s c0 c1 c2 c3]
        exact ⟨rfl, rfl⟩
    unfold Assembled at ha ⊢
    rw [hkeep.1, hkeep.2]
    simpa using ha

/-- A run of ticks keeps the word assembled from the bits received so far. -/
theorem Assembled_run (ls : List Bool) (bs : List Bool) (s : irVariables) (h : Inv s)
    (ha : Assembled bs s) : Assembled (bs ++ received ls s) (run ls s) := by
  induction ls generalizing bs s with
  | nil => simpa [received, run_nil] using ha
  | cons l ls ih =>
    rw [received_cons, run_cons, ← List.append_assoc]
    exact ih _ _ (Inv_step l s h) (Assembled_step bs l s h ha)

/-! ## Properties of the decoder -/

/-- C1: decoding a well-timed frame returns the transmitted word.  For every
13-bit word `w` and every choice `a` of the free samples, the frame has 70
samples; fed from the initial state, every `ir_data()` call made after fewer
than 70 ticks returns 0 and changes nothing, and the `ir_data()` call made
after the 70th tick returns `w`. -/
theorem frame_decodes (w : Nat) (hw : w < 8192) (a : Nat → Bool) :
    (frame a w).length = 70 ∧
    (∀ k, k < 70 →
      (ir_data (run ((frame a w).take k) ir)).1 = 0 ∧
      (ir_data (run ((frame a w).take k) ir)).2 = run ((frame a w).take k) ir) ∧
    (ir_data (run (frame a w) ir)).1 = (w : Int) := by
  obtain ⟨q1, q2, q3, -⟩ := run_frame a w ir hw rfl rfl rfl rfl
  refine ⟨by simp [frame, tail, length_cells], ?_, ?_⟩
  · intro k hk
    simp [ir_data, q1 k hk]
  · simp [ir_data, q2, q3]

/-- Witness for C1: the word `0b1010101010101 = 5461`, free samples all `false`. -/
theorem frame_decodes_witness :
    5461 < 8192 ∧ (ir_data (run (frame (fun _ => false) 5461) ir)).1 = 5461 ∧
    (ir_data (run ((frame (fun _ => false) 5461).take 69) ir)).1 = 0 :=
  ⟨by decide, (frame_decodes 5461 (by decide) (fun _ => false)).2.2,
    ((frame_decodes 5461 (by decide) (fun _ => false)).2.1 69 (by decide)).1⟩

/-- C2: in phase Idle, `ir_data()` returns the pending word and re-arms the
decoder: `dataIndex = 13`, `counter = 0`, `data = 0`, `state = STANDBY`, with
`pin`, `pinState` and `pinStateOld` unchanged. -/
theorem ir_data_idle (s : irVariables) (h : s.state = IDLE) :
    (ir_data s).1 = s.data ∧
    (ir_data s).2.dataIndex = 13 ∧ (ir_data s).2.counter = 0 ∧
    (ir_data s).2.data = 0 ∧ (ir_data s).2.state = STANDBY ∧
    (ir_data s).2.pin = s.pin ∧ (ir_data s).2.pinState = s.pinState ∧
    (ir_data s).2.pinStateOld = s.pinStateOld := by
  simp [ir_data, h, IR_NUM_BITS]

/-- Witness for C2 at an Idle record holding the word 5461. -/
theorem ir_data_idle_witness :
    ({ ir with state := IDLE, data := 5461, dataIndex := 0, counter := 4 } : irVariables).state
        = IDLE ∧
    (ir_data { ir with state := IDLE, data := 5461, dataIndex := 0, counter := 4 }).1 = 5461 ∧
    (ir_data { ir with state := IDLE, data := 5461, dataIndex := 0, counter := 4 }).2.state
        = STANDBY :=
  ⟨rfl, (ir_data_idle _ rfl).1, (ir_data_idle _ rfl).2.2.2.2.1⟩

/-- C3: in any phase other than Idle, `ir_data()` returns 0 and leaves the
whole decoder record unchanged. -/
theorem ir_data_not_idle (s : irVariables) (h : s.state ≠ IDLE) :
    (ir_data s).1 = 0 ∧ (ir_data s).2 = s := by
  simp [ir_data, h]

/-- Witness for C3 at the initial (Standby) record. -/
theorem ir_data_not_idle_witness :
    ir.state ≠ IDLE ∧ (ir_data ir).1 = 0 ∧ (ir_data ir).2 = ir :=
  ⟨by decide, ir_data_not_idle ir (by decide)⟩

/-- C4: a timeout yields the sentinel.  From every reachable state in phase
Waiting, if the following samples all equal the reference level
(`pinStateOld`), then after 3 ticks (`IR_TIMEOUT + 1`), and after any longer
such run, the phase is Idle with `data = -1`, and `ir_data()` returns -1. -/
theorem timeout_yields_sentinel (s : irVariables) (h : Reachable s) (hw : s.state = WAITING)
    (ls : List Bool) (hl : ∀ l ∈ ls, levelVal l = s.pinStateOld) (hn : 3 ≤ ls.length) :
    (run ls s).state = IDLE ∧ (run ls s).data = -1 ∧ (ir_data (run ls s)).1 = -1 := by
  have hc : s.counter ≤ 2 := by
    obtain ⟨-, -, h3⟩ := h.inv
    rcases h3 with ⟨hs, -⟩ | ⟨hs, -⟩ | ⟨-, hc, -⟩ | ⟨hs, -⟩ | ⟨hs, -⟩
    · rw [hw] at hs; exact absurd hs (by decide)
    · rw [hw] at hs; exact absurd hs (by decide)
    · exact hc
    · rw [hw] at hs; exact absurd hs (by decide)
    · rw [hw] at hs; exact absurd hs (by decide)
  obtain ⟨q1, q2⟩ := run_waiting_timeout ls s hw hc hl (by omega)
  refine ⟨q1, q2, ?_⟩
  simp [ir_data, q1, q2]

/-- Witness for C4: after the start edge and four ticks the decoder waits with
reference level `false` and bit 12 already assembled (`data = 4096`); three
more samples at `false` time out. -/
theorem timeout_yields_sentinel_witness :
    (run [true, true, true, true, false, true, false, false, false, false] ir).state = WAITING ∧
    (run [false, false, false]
      (run [true, true, true, true, false, true, false, false, false, false] ir)).state = IDLE ∧
    (run [false, false, false]
      (run [true, true, true, true, false, true, false, false, false, false] ir)).data = -1 ∧
    (ir_data (run [false, false, false]
      (run [true, true, true, true, false, true, false, false, false, false] ir))).1 = -1 :=
  ⟨by decide, timeout_yields_sentinel _ (Reachable.init.run _) (by decide) [false, false, false]
    (by decide) (by decide)⟩

/-- C5: in every state reachable by ticks, `ir_data()` calls and `ir_begin()`
calls, the value `ir_data()` returns is -1 or lies in [0, 8191]; and in every
reachable Idle state either `data = -1`, or `dataIndex = 0` and
`0 ≤ data ≤ 8191`. -/
theorem ir_data_value_range (s : irVariables) (h : Reachable s) :
    ((ir_data s).1 = -1 ∨ (0 ≤ (ir_data s).1 ∧ (ir_data s).1 ≤ 8191)) ∧
    (s.state = IDLE → s.data = -1 ∨ (s.dataIndex = 0 ∧ 0 ≤ s.data ∧ s.data ≤ 8191)) := by
  have hidle : s.state = IDLE → s.data = -1 ∨ (s.dataIndex = 0 ∧ 0 ≤ s.data ∧ s.data ≤ 8191) := by
    intro hs
    obtain ⟨-, -, h3⟩ := h.inv
    rcases h3 with ⟨hs2, -⟩ | ⟨hs2, -⟩ | ⟨hs2, -⟩ | ⟨hs2, -⟩ | ⟨-, hd⟩
    · rw [hs] at hs2; exact absurd hs2 (by decide)
    · rw [hs] at hs2; exact absurd hs2 (by decide)
    · rw [hs] at hs2; exact absurd hs2 (by decide)
    · rw [hs] at hs2; exact absurd hs2 (by decide)
    · exact hd
  refine ⟨?_, hidle⟩
  by_cases hs : s.state = IDLE
  · rcases hidle hs with hd | ⟨-, hd0, hd1⟩
    · left; simp [ir_data, hs, hd]
    · right; simp [ir_data, hs, hd0, hd1]
  · right; simp [ir_data, hs]

/-- Witness for C5 at the Idle state reached by a timeout on the first bit. -/
theorem ir_data_value_range_witness :
    (run [true, false, false, false, false, false, false, false] ir).state = IDLE ∧
    (ir_data (run [true, false, false, false, false, false, false, false] ir)).1 = -1 ∧
    (((ir_data (run [true, false, false, false, false, false, false, false] ir)).1 = -1 ∨
      (0 ≤ (ir_data (run [true, false, false, false, false, false, false, false] ir)).1 ∧
        (ir_data (run [true, false, false, false, false, false, false, false] ir)).1 ≤ 8191)) ∧
     ((run [true, false, false, false, false, false, false, false] ir).state = IDLE →
      (run [true, false, false, false, false, false, false, false] ir).data = -1 ∨
      ((run [true, false, false, false, false, false, false, false] ir).dataIndex = 0 ∧
        0 ≤ (run [true, false, false, false, false, false, false, false] ir).data ∧
        (run [true, false, false, false, false, false, false, false] ir).data ≤ 8191))) :=
  ⟨by decide, by decide, ir_data_value_range _ (Reachable.init.run _)⟩

/-- C6: single consumption.  If `ir_data()` returns a non-zero value, the
`ir_data()` call made immediately afterwards returns 0. -/
theorem ir_data_single_consumption (s : irVariables) (h : (ir_data s).1 ≠ 0) :
    (ir_data (ir_data s).2).1 = 0 := by
  by_cases hs : s.state = IDLE
  · simp [ir_data, hs, STANDBY, IDLE]
  · simp [ir_data, hs] at h

/-- Witness for C6 at an Idle record holding the timeout sentinel. -/
theorem ir_data_single_consumption_witness :
    (ir_data { ir with state := IDLE, data := -1 }).1 ≠ 0 ∧
    (ir_data (ir_data { ir with state := IDLE, data := -1 }).2).1 = 0 :=
  ⟨by decide, ir_data_single_consumption _ (by decide)⟩

/-- C7: re-arm leaves no residue.  For every state `s` in phase Idle (reachable
or not) and every sequence `ops` of ticks and `ir_data()` calls, running `ops`
after `ir_data()` from `s` gives the same returned values and the same `state`,
`data`, `counter` and `dataIndex` after each operation as running `ops` from the
initial state; and a fresh well-timed frame for any 13-bit word `w` is decoded
to `w`. -/
theorem rearm_no_residue (s : irVariables) (h : s.state = IDLE) (ops : List Op) :
    observe ops (ir_data s).2 = observe ops ir ∧
    ∀ (w : Nat) (a : Nat → Bool), w < 8192 →
      (ir_data (run (frame a w) (ir_data s).2)).1 = (w : Int) := by
  have hs : (ir_data s).2 =
      { s with dataIndex := 13, counter := 0, data := 0, state := STANDBY } := by
    rw [ir_data_of_idle s h]
  constructor
  · apply Agree_observe
    rw [hs]
    exact ⟨rfl, rfl, rfl, rfl, fun (hw : STANDBY = WAITING) => absurd hw (by decide)⟩
  · intro w a hw
    obtain ⟨-, q2, q3, -⟩ := run_frame a w (ir_data s).2 hw (by rw [hs]) (by rw [hs])
      (by rw [hs]) (by rw [hs])
    rw [ir_data_of_idle _ q2]
    dsimp only
    exact q3

/-- Witness for C7: the Idle state left by a timeout on the first bit, followed
by a start edge, a poll, four delay ticks and a second poll. -/
theorem rearm_no_residue_witness :
    (run [true, false, false, false, false, false, false, false] ir).state = IDLE ∧
    observe [Op.tick true, Op.read, Op.tick false, Op.tick true, Op.tick true, Op.tick false,
        Op.tick true, Op.read]
      (ir_data (run [true, false, false, false, false, false, false, false] ir)).2 =
    observe [Op.tick true, Op.read, Op.tick false, Op.tick true, Op.tick true, Op.tick false,
        Op.tick true, Op.read] ir :=
  ⟨by decide, (rearm_no_residue _ (by decide) _).1⟩

/-- C8: idle default.  After any number `n` of ticks from the initial state that
all sample the logical level `false`, the phase is still Standby with
`data = 0`, `counter = 0`, `dataIndex = 13`, and `ir_data()` returns 0. -/
theorem idle_default (n : Nat) :
    (run (List.replicate n false) ir).state = STANDBY ∧
    (run (List.replicate n false) ir).data = 0 ∧
    (run (List.replicate n false) ir).counter = 0 ∧
    (run (List.replicate n false) ir).dataIndex = 13 ∧
    (ir_data (run (List.replicate n false) ir)).1 = 0 := by
  obtain ⟨q1, q2, q3, q4⟩ := run_standby_false n ir rfl
  refine ⟨q1, q2, q3, q4, ?_⟩
  simp [ir_data, q1, STANDBY, IDLE]

/-- C9: tail immunity.  From every reachable state in phase DelayingEnd, after
any sequence of ticks at any levels `data` and `dataIndex` are unchanged and the
phase is DelayingEnd or Idle; Idle is reached within 4 ticks, and the
`ir_data()` call made in Idle returns the word completed before the tail. -/
theorem tail_immunity (s : irVariables) (h : Reachable s) (he : s.state = DELAYING_END)
    (ls : List Bool) :
    (run ls s).data = s.data ∧ (run ls s).dataIndex = s.dataIndex ∧
    ((run ls s).state = DELAYING_END ∨ (run ls s).state = IDLE) ∧
    (4 ≤ ls.length → (run ls s).state = IDLE) ∧
    ((run ls s).state = IDLE → (ir_data (run ls s)).1 = s.data) := by
  obtain ⟨q1, q2, q3⟩ := run_end_or_idle ls s (Or.inl he)
  refine ⟨q1, q2, q3, ?_, ?_⟩
  · intro hn
    refine run_reaches_idle ls s h.inv (by rw [he]; decide) ?_
    have : remaining s ≤ 4 := by simp [remaining, he, DELAYING, WAITING, DELAYING_END]
    omega
  · intro hi
    simp [ir_data, hi, q1]

set_option maxRecDepth 100000 in
/-- Witness for C9: the state after the last bit of the frame of 5461, followed
by a tail with spurious edges. -/
theorem tail_immunity_witness :
    afterLastBit.state = DELAYING_END ∧ afterLastBit.data = 5461 ∧
    (run [true, false, true, true] afterLastBit).state = IDLE ∧
    (ir_data (run [true, false, true, true] afterLastBit)).1 = afterLastBit.data :=
  ⟨by decide, by decide,
    (tail_immunity afterLastBit (Reachable.init.run _) (by decide)
      [true, false, true, true]).2.2.2.1 (by decide),
    (tail_immunity afterLastBit (Reachable.init.run _) (by decide)
      [true, false, true, true]).2.2.2.2
      ((tail_immunity afterLastBit (Reachable.init.run _) (by decide)
        [true, false, true, true]).2.2.2.1 (by decide))⟩

/-- C10: no lock-up.  From every reachable Standby state, once a tick has
sampled the logical level `true`, after 95 further ticks at any levels, and
after any larger number of them, the phase is Idle; `ir_data()` then puts the
phase back to Standby. -/
theorem no_lockup (s : irVariables) (h : Reachable s) (hs : s.state = STANDBY)
    (post : List Bool) (hn : 95 ≤ post.length) :
    (run post (step true s)).state = IDLE ∧
    (ir_data (run post (step true s))).2.state = STANDBY := by
  have hst : step true s = { s with pinState := 1, state := DELAYING } := by
    rw [step_standby true s hs]; rfl
  have hidx : s.dataIndex = 13 := by
    obtain ⟨-, -, h3⟩ := h.inv
    rcases h3 with ⟨-, -, -, hi⟩ | ⟨hs2, -⟩ | ⟨hs2, -⟩ | ⟨hs2, -⟩ | ⟨hs2, -⟩
    · exact hi
    · rw [hs] at hs2; exact absurd hs2 (by decide)
    · rw [hs] at hs2; exact absurd hs2 (by decide)
    · rw [hs] at hs2; exact absurd hs2 (by decide)
    · rw [hs] at hs2; exact absurd hs2 (by decide)
  have hrem : remaining (step true s) ≤ 95 := by
    rw [hst]
    simp [remaining, hidx]
  have hidle : (run post (step true s)).state = IDLE :=
    run_reaches_idle post (step true s) (Inv_step true s h.inv)
      (by rw [hst]; show DELAYING ≠ STANDBY; decide) (by omega)
  exact ⟨hidle, by simp [ir_data, hidle]⟩

/-- Witness for C10: the start edge from the initial state, then 95 ticks at
level `false`. -/
theorem no_lockup_witness :
    ir.state = STANDBY ∧ 95 ≤ (List.replicate 95 false).length ∧
    (run (List.replicate 95 false) (step true ir)).state = IDLE ∧
    (ir_data (run (List.replicate 95 false) (step true ir))).2.state = STANDBY :=
  ⟨rfl, by decide, no_lockup ir Reachable.init rfl (List.replicate 95 false) (by decide)⟩

/-- C11, as stated, fails: `ir_begin(5)` called on the reachable Idle record left
by a timeout stores the pin but leaves `state = IDLE`, `data = -1`,
`counter = 3`. -/
theorem ir_begin_initializes_counterexample :
    Reachable timedOut ∧ (ir_begin 5 timedOut).pin = 5 ∧
    (ir_begin 5 timedOut).state = IDLE ∧ (ir_begin 5 timedOut).state ≠ STANDBY ∧
    (ir_begin 5 timedOut).data = -1 ∧ (ir_begin 5 timedOut).counter = 3 ∧
    (ir_begin 5 timedOut).dataIndex = 13 :=
  ⟨Reachable.init.run _, by decide, by decide, by decide, by decide, by decide, by decide⟩

/-- C11, amended: for every record and every pin `p`, `ir_begin(p)` stores `p`
and leaves `state`, `data`, `counter`, `dataIndex`, `pinState` and `pinStateOld`
as they were; called on the initial record, whose initialiser sets them, it
yields `state = STANDBY`, `counter = 0`, `data = 0`, `dataIndex = 13`. -/
theorem ir_begin_stores_pin (s : irVariables) (p : Nat) :
    (ir_begin p s).pin = p ∧ (ir_begin p s).state = s.state ∧
    (ir_begin p s).data = s.data ∧ (ir_begin p s).counter = s.counter ∧
    (ir_begin p s).dataIndex = s.dataIndex ∧ (ir_begin p s).pinState = s.pinState ∧
    (ir_begin p s).pinStateOld = s.pinStateOld ∧
    ((ir_begin p ir).pin = p ∧ (ir_begin p ir).state = STANDBY ∧
      (ir_begin p ir).counter = 0 ∧ (ir_begin p ir).data = 0 ∧
      (ir_begin p ir).dataIndex = 13) :=
  ⟨rfl, rfl, rfl, rfl, rfl, rfl, rfl, rfl, rfl, rfl, rfl, rfl⟩

set_option maxRecDepth 100000 in
/-- C12, as stated, fails: in the well-timed frame of the word 4096 the
earliest-received bit is 1, the frame is completely received and `ir_data()`
returns 4096, whose bit 0 is 0 (its bit 12 is 1). -/
theorem bit_order_counterexample :
    (run (frame (fun _ => false) 4096) ir).state = IDLE ∧
    (received (frame (fun _ => false) 4096) ir).head? = some true ∧
    (ir_data (run (frame (fun _ => false) 4096) ir)).1 = 4096 ∧
    Int.testBit (ir_data (run (frame (fun _ => false) 4096) ir)).1 0 = false ∧
    Int.testBit (ir_data (run (frame (fun _ => false) 4096) ir)).1 12 = true := by
  decide

/-- C12, amended: after a completely received frame (a run of ticks from a
reachable Standby state that ends in phase Idle without the sentinel), 13 bits
have been received and, in the word returned by `ir_data()`, the `k`-th
received bit (`k = 0` the earliest) occupies bit `12 - k`: the earliest-received
bit is at bit 12, the latest-received bit at bit 0. -/
theorem received_bit_order (s : irVariables) (h : Reachable s) (hs : s.state = STANDBY)
    (ls : List Bool) (hi : (run ls s).state = IDLE) (hd : (run ls s).data ≠ -1) :
    (received ls s).length = 13 ∧
    (ir_data (run ls s)).1 = ((bitsVal (received ls s) : Nat) : Int) ∧
    ∀ k, k < 13 →
      (received ls s)[k]? = some (Int.testBit (ir_data (run ls s)).1 (12 - k)) := by
  obtain ⟨-, hd0, hi13⟩ := Inv_standby s h.inv hs
  have ha0 : Assembled [] s := by
    intro _
    rw [hd0, hi13]
    exact ⟨by simp [bitsVal], rfl⟩
  have ha := Assembled_run ls [] s h.inv ha0
  rw [List.nil_append] at ha
  obtain ⟨a1, a2⟩ := ha hd
  have hz : (run ls s).dataIndex = 0 := by
    obtain ⟨-, -, h3⟩ := Inv_run ls s h.inv
    rcases h3 with ⟨c, -⟩ | ⟨c, -⟩ | ⟨c, -⟩ | ⟨c, -⟩ | ⟨-, q | q⟩
    · rw [hi] at c; exact absurd c (by decide)
    · rw [hi] at c; exact absurd c (by decide)
    · rw [hi] at c; exact absurd c (by decide)
    · rw [hi] at c; exact absurd c (by decide)
    · exact absurd q hd
    · exact q.1
  rw [hz] at a1 a2
  have hlen : (received ls s).length = 13 := by omega
  have hval : (ir_data (run ls s)).1 = ((bitsVal (received ls s) : Nat) : Int) := by
    rw [ir_data_of_idle _ hi]
    dsimp only
    rw [a1]
    simp
  refine ⟨hlen, hval, ?_⟩
  intro k hk
  have hk2 : k < (received ls s).length := by omega
  have ht := testBit_bitsVal (received ls s) k hk2
  rw [hlen, List.getD_eq_getElem?_getD, List.getElem?_eq_getElem hk2] at ht
  rw [hval, List.getElem?_eq_getElem hk2]
  show some _ = some (Nat.testBit (bitsVal (received ls s)) (12 - k))
  have h12 : 13 - 1 - k = 12 - k := by omega
  rw [h12] at ht
  rw [ht]
  rfl

set_option maxRecDepth 100000 in
/-- Witness for C12: the well-timed frame of the word 4096 fed from the initial
state; the earliest-received bit 1 is bit 12 of the returned word. -/
theorem received_bit_order_witness :
    ir.state = STANDBY ∧ (run (frame (fun _ => false) 4096) ir).state = IDLE ∧
    (run (frame (fun _ => false) 4096) ir).data ≠ -1 ∧
    (received (frame (fun _ => false) 4096) ir).length = 13 ∧
    (received (frame (fun _ => false) 4096) ir)[0]?
      = some (Int.testBit (ir_data (run (frame (fun _ => false) 4096) ir)).1 (12 - 0)) :=
  ⟨rfl, by decide, by decide,
    (received_bit_order ir Reachable.init rfl (frame (fun _ => false) 4096)
      (by decide) (by decide)).1,
    (received_bit_order ir Reachable.init rfl (frame (fun _ => false) 4096)
      (by decide) (by decide)).2.2 0 (by decide)⟩

/-- C13: phase changes follow the fixed cycle.  For every reachable state and
every sampled level, a tick changes the phase along one of the eleven edges of
`TickEdge`; `ir_data()` leaves the phase as it is or takes it from Idle to
Standby; `ir_begin()` leaves it as it is; and the state code is one of
0, 1, 2, 3, 4, before and after each of them. -/
theorem phase_cycle (s : irVariables) (h : Reachable s) (l : Bool) :
    TickEdge s.state (step l s).state ∧
    ((ir_data s).2.state = s.state ∨ (s.state = IDLE ∧ (ir_data s).2.state = STANDBY)) ∧
    (s.state ≠ IDLE → (ir_data s).2.state = s.state) ∧
    (∀ p, (ir_begin p s).state = s.state) ∧
    s.state ≤ 4 ∧ (step l s).state ≤ 4 ∧ (ir_data s).2.state ≤ 4 := by
  have hst : ∀ t : irVariables, Inv t → t.state ≤ 4 := by
    intro t ht
    rcases Inv_state t ht with q | q | q | q | q <;> rw [q] <;> decide
  refine ⟨Inv_tick_edge l s h.inv, ?_, ?_, fun _ => rfl, hst s h.inv,
    hst _ (Inv_step l s h.inv), hst _ (Inv_ir_data s h.inv)⟩
  · by_cases hs : s.state = IDLE
    · right
      rw [ir_data_of_idle s hs]
      exact ⟨hs, rfl⟩
    · left
      rw [ir_data_of_not_idle s hs]
  · intro hs
    rw [ir_data_of_not_idle s hs]

/-- Witness for C13: the Waiting state reached after the start edge and four
delay ticks, at a sample that differs from the reference level. -/
theorem phase_cycle_witness :
    (run [true, false, false, false, false] ir).state = WAITING ∧
    (step true (run [true, false, false, false, false] ir)).state = DELAYING ∧
    TickEdge (run [true, false, false, false, false] ir).state
      (step true (run [true, false, false, false, false] ir)).state :=
  ⟨by decide, by decide, (phase_cycle _ (Reachable.init.run _) true).1⟩

/-- C14: Idle holds the result.  For every record in phase Idle and every
sampled level, a tick writes only `pinState`: `state`, `data`, `pinStateOld`,
`counter`, `dataIndex` and `pin` are unchanged. -/
theorem idle_holds_result (s : irVariables) (h : s.state = IDLE) (l : Bool) :
    step l s = { s with pinState := levelVal l } ∧
    (step l s).state = IDLE ∧ (step l s).data = s.data ∧
    (step l s).pinStateOld = s.pinStateOld ∧ (step l s).counter = s.counter ∧
    (step l s).dataIndex = s.dataIndex ∧ (step l s).pin = s.pin := by
  rw [step_idle l s h]
  exact ⟨rfl, h, rfl, rfl, rfl, rfl, rfl⟩

/-- Witness for C14: a tick at level `true` on the Idle record left by a timeout. -/
theorem idle_holds_result_witness :
    timedOut.state = IDLE ∧ (step true timedOut).state = IDLE ∧
    (step true timedOut).data = timedOut.data ∧ (step true timedOut).data = -1 :=
  ⟨by decide, (idle_holds_result timedOut (by decide) true).2.1,
    (idle_holds_result timedOut (by decide) true).2.2.1, by decide⟩

/-- C15: the tick handler never re-arms the bit counter.  For every reachable
state and every sampled level, `dataIndex` after a tick is `dataIndex` before it
or that value minus one, and it lies in [0, 13] before and after; `ir_data()`
outside Idle and `ir_begin()` leave it unchanged, and `ir_data()` in Idle sets
it to 13. -/
theorem tick_never_rearms (s : irVariables) (h : Reachable s) (l : Bool) :
    ((step l s).dataIndex = s.dataIndex ∨ (step l s).dataIndex + 1 = s.dataIndex) ∧
    s.dataIndex ≤ 13 ∧ (step l s).dataIndex ≤ 13 ∧
    (s.state ≠ IDLE → (ir_data s).2.dataIndex = s.dataIndex) ∧
    (s.state = IDLE → (ir_data s).2.dataIndex = 13) ∧
    (∀ p, (ir_begin p s).dataIndex = s.dataIndex) := by
  refine ⟨ISR_dataIndex _ s h.inv, h.dataIndex_le, (h.step l).dataIndex_le, ?_, ?_, fun _ => rfl⟩
  · intro c
    rw [ir_data_of_not_idle s c]
  · intro c
    rw [ir_data_of_idle s c]

/-- Witness for C15: the tick that receives bit 12 lowers `dataIndex` from 13 to 12. -/
theorem tick_never_rearms_witness :
    (run [true, false, false, false, false] ir).dataIndex = 13 ∧
    (step true (run [true, false, false, false, false] ir)).dataIndex = 12 ∧
    ((step true (run [true, false, false, false, false] ir)).dataIndex
        = (run [true, false, false, false, false] ir).dataIndex ∨
      (step true (run [true, false, false, false, false] ir)).dataIndex + 1
        = (run [true, false, false, false, false] ir).dataIndex) :=
  ⟨by decide, by decide, (tick_never_rearms _ (Reachable.init.run _) true).1⟩

set_option maxRecDepth 100000 in
/-- C16, as stated, fails: the record `afterLastBit` has just entered
DelayingEnd (`counter = 0`), and after `IR_DELAY = 3` further ticks the phase is
still DelayingEnd, not Idle. -/
theorem end_delay_counterexample :
    Reachable afterLastBit ∧ afterLastBit.state = DELAYING_END ∧ afterLastBit.counter = 0 ∧
    (run [false, false, false] afterLastBit).state = DELAYING_END ∧
    (run [false, false, false] afterLastBit).state ≠ IDLE :=
  ⟨Reachable.init.run _, by decide, by decide, by decide, by decide⟩

/-- C16, amended: for every reachable state that has just entered DelayingEnd
(`counter = 0`), whatever the sampled levels, the phase is still DelayingEnd
after up to 3 further ticks and is Idle after `IR_DELAY + 1 = 4` further ticks
(and after any larger number of them). -/
theorem end_delay_length (s : irVariables) (h : Reachable s) (he : s.state = DELAYING_END)
    (hc : s.counter = 0) (ls : List Bool) :
    (ls.length ≤ 3 → (run ls s).state = DELAYING_END) ∧
    (4 ≤ ls.length → (run ls s).state = IDLE) := by
  constructor
  · intro hl
    exact (run_end_short ls s he (by omega)).1
  · intro hl
    refine run_reaches_idle ls s h.inv (by rw [he]; decide) ?_
    have : remaining s ≤ 4 := by simp [remaining, he, DELAYING, WAITING, DELAYING_END]
    omega

set_option maxRecDepth 100000 in
/-- Witness for C16: the record `afterLastBit`, three and four ticks with a
spurious edge. -/
theorem end_delay_length_witness :
    afterLastBit.state = DELAYING_END ∧ afterLastBit.counter = 0 ∧
    (run [false, true, false] afterLastBit).state = DELAYING_END ∧
    (run [false, true, false, false] afterLastBit).state = IDLE :=
  ⟨by decide, by decide,
    (end_delay_length afterLastBit (Reachable.init.run _) (by decide) (by decide)
      [false, true, false]).1 (by decide),
    (end_delay_length afterLastBit (Reachable.init.run _) (by decide) (by decide)
      [false, true, false, false]).2 (by decide)⟩

/-- C17: leaving Standby.  In every reachable state in phase Standby the counter
is 0; a tick that samples `true` yields phase Delaying and leaves the counter,
hence `counter = 0`; a tick that samples `false` leaves phase Standby. -/
theorem leaving_standby (s : irVariables) (h : Reachable s) (hs : s.state = STANDBY) :
    s.counter = 0 ∧
    (step true s).state = DELAYING ∧ (step true s).counter = s.counter ∧
    (step true s).counter = 0 ∧
    (step false s).state = STANDBY ∧ (step false s).counter = 0 := by
  obtain ⟨hc, -, -⟩ := Inv_standby s h.inv hs
  rw [step_standby true s hs, step_standby false s hs]
  exact ⟨hc, rfl, rfl, hc, hs, hc⟩

/-- Witness for C17: the Standby state re-armed by `ir_data()` after a timeout. -/
theorem leaving_standby_witness :
    (ir_data timedOut).2.state = STANDBY ∧
    (step true (ir_data timedOut).2).state = DELAYING ∧
    (step true (ir_data timedOut).2).counter = 0 ∧
    (step false (ir_data timedOut).2).state = STANDBY :=
  ⟨by decide,
    (leaving_standby _ (Reachable.read (Reachable.init.run _)) (by decide)).2.1,
    (leaving_standby _ (Reachable.read (Reachable.init.run _)) (by decide)).2.2.2.1,
    (leaving_standby _ (Reachable.read (Reachable.init.run _)) (by decide)).2.2.2.2.1⟩

/-- C18: `ir_data()` is atomic in effect.  For every record in phase Idle, running
any ticks at any levels between the consecutive accesses of `ir_data()` (test
of `state`, read of `data`, writes of `dataIndex`, `counter`, `data`, `state`)
returns the same value and ends with the same `state`, `data`, `counter` and
`dataIndex` as the uninterrupted call. -/
theorem ir_data_atomic_in_effect (s : irVariables) (h : s.state = IDLE)
    (ticks1 ticks2 ticks3 ticks4 ticks5 : List Bool) :
    (ir_data_interleaved ticks1 ticks2 ticks3 ticks4 ticks5 s).1 = (ir_data s).1 ∧
    (ir_data_interleaved ticks1 ticks2 ticks3 ticks4 ticks5 s).2.state = (ir_data s).2.state ∧
    (ir_data_interleaved ticks1 ticks2 ticks3 ticks4 ticks5 s).2.data = (ir_data s).2.data ∧
    (ir_data_interleaved ticks1 ticks2 ticks3 ticks4 ticks5 s).2.counter
      = (ir_data s).2.counter ∧
    (ir_data_interleaved ticks1 ticks2 ticks3 ticks4 ticks5 s).2.dataIndex
      = (ir_data s).2.dataIndex := by
  obtain ⟨a1, a2, -, -⟩ := run_idle ticks1 s h
  obtain ⟨b1, -, -, -⟩ := run_idle ticks2 (run ticks1 s) a1
  obtain ⟨c1, -, -, c4⟩ := run_idle ticks3 { run ticks2 (run ticks1 s) with dataIndex := 13 } b1
  obtain ⟨d1, -, d3, d4⟩ := run_idle ticks4
    { run ticks3 { run ticks2 (run ticks1 s) with dataIndex := 13 } with counter := 0 } c1
  obtain ⟨-, e2, e3, e4⟩ := run_idle ticks5
    { run ticks4
        { run ticks3 { run ticks2 (run ticks1 s) with dataIndex := 13 } with counter := 0 }
      with data := 0 } d1
  rw [ir_data_of_idle s h]
  unfold ir_data_interleaved
  rw [if_pos h]
  dsimp only at c1 c4 d1 d3 d4 e2 e3 e4
  refine ⟨a2, rfl, ?_, ?_, ?_⟩ <;> dsimp only [IR_NUM_BITS]
  · exact e2
  · rw [e3]
    exact d3
  · rw [e4, d4]
    exact c4

/-- Witness for C18: the Idle record left by a timeout, with ticks that carry a
start edge between the accesses. -/
theorem ir_data_atomic_in_effect_witness :
    timedOut.state = IDLE ∧
    (ir_data_interleaved [true] [false, true] [true, true] [false] [true, false] timedOut).1
      = (ir_data timedOut).1 ∧
    (ir_data_interleaved [true] [false, true] [true, true] [false] [true, false] timedOut).2.state
      = (ir_data timedOut).2.state :=
  ⟨by decide,
    (ir_data_atomic_in_effect timedOut (by decide) [true] [false, true] [true, true] [false]
      [true, false]).1,
    (ir_data_atomic_in_effect timedOut (by decide) [true] [false, true] [true, true] [false]
      [true, false]).2.1⟩

/-- C19: partial-word invariant.  In every reachable state in phase Standby,
Delaying, Waiting or DelayingEnd, `0 ≤ data < 2^13` and
`data mod 2^dataIndex = 0`; and the tick that receives a bit in phase Waiting
lowers `dataIndex` by one to a position at most 12, where `data` has a clear
bit, and adds `2^dataIndex` for a bit 1 (nothing for a bit 0), so that `data`
stays in `[0, 2^13)`. -/
theorem unfinished_word_invariant (s : irVariables) (h : Reachable s)
    (hs : s.state = STANDBY ∨ s.state = DELAYING ∨ s.state = WAITING ∨
      s.state = DELAYING_END) :
    0 ≤ s.data ∧ s.data < 8192 ∧ s.data % 2 ^ s.dataIndex = 0 ∧
    (s.state = WAITING → ∀ l : Bool, levelVal l ≠ s.pinStateOld →
      (step l s).dataIndex + 1 = s.dataIndex ∧ (step l s).dataIndex ≤ 12 ∧
      Int.testBit s.data (step l s).dataIndex = false ∧
      _BV (step l s).dataIndex = 2 ^ (step l s).dataIndex ∧
      (step l s).data = (if l then Int.lor s.data (_BV (step l s).dataIndex) else s.data) ∧
      (step l s).data = s.data + (if l then 2 ^ (step l s).dataIndex else 0) ∧
      0 ≤ (step l s).data ∧ (step l s).data < 8192) := by
  have hinv := h.inv
  have hbase : 0 ≤ s.data ∧ s.data < 8192 ∧ s.data % 2 ^ s.dataIndex = 0 := by
    obtain ⟨-, -, h3⟩ := hinv
    rcases h3 with ⟨-, -, hd, hi⟩ | ⟨-, -, -, -, q⟩ | ⟨-, -, -, -, q⟩ | ⟨-, -, hi, q1, q2⟩ |
      ⟨hs2, -⟩
    · rw [hd]; simp
    · exact q
    · exact q
    · rw [hi]; exact ⟨q1, q2, by simp⟩
    · rcases hs with c | c | c | c <;> rw [hs2] at c <;> exact absurd c (by decide)
  refine ⟨hbase.1, hbase.2.1, hbase.2.2, ?_⟩
  intro hw l he
  obtain ⟨-, h1, h2, hd0, hd1, hdm⟩ := Inv_waiting s hinv hw
  obtain ⟨i, hi⟩ : ∃ i, s.dataIndex = i + 1 := ⟨s.dataIndex - 1, by omega⟩
  have hi12 : i ≤ 12 := by omega
  have hidx : (s.dataIndex + 255) % 256 = i := by omega
  rw [hi] at hdm
  obtain ⟨-, q2, q3, -⟩ := word_step s.data i hi12 hd0 hd1 hdm
  have hl := lor_BV s.data i hi12 hd0 hdm
  have hbv : _BV i = 2 ^ i := by rw [BV_small i hi12]; push_cast; rfl
  rw [step_waiting_edge l s hw he, hidx]
  refine ⟨hi.symm, hi12, testBit_clear s.data i hd0 hdm, hbv, rfl, ?_, ?_, ?_⟩
  · cases l
    · simp
    · simpa using hl
  · cases l
    · simpa using hd0
    · simp only [if_true]; rw [hl]; exact q2
  · cases l
    · simpa using hd1
    · simp only [if_true]; rw [hl]; exact q3

/-- Witness for C19: the Waiting state after the start edge and four delay
ticks; the tick that receives bit 12 as 1 stores `4096`. -/
theorem unfinished_word_invariant_witness :
    (run [true, false, false, false, false] ir).state = WAITING ∧
    (step true (run [true, false, false, false, false] ir)).data = 4096 ∧
    0 ≤ (run [true, false, false, false, false] ir).data ∧
    (run [true, false, false, false, false] ir).data < 8192 ∧
    (run [true, false, false, false, false] ir).data %
      2 ^ (run [true, false, false, false, false] ir).dataIndex = 0 :=
  ⟨by decide, by decide,
    (unfinished_word_invariant _ (Reachable.init.run _) (Or.inr (Or.inr (Or.inl (by decide))))).1,
    (unfinished_word_invariant _ (Reachable.init.run _) (Or.inr (Or.inr (Or.inl (by decide))))).2.1,
    (unfinished_word_invariant _ (Reachable.init.run _)
      (Or.inr (Or.inr (Or.inl (by decide))))).2.2.1⟩

/-- C20: the zero word is indistinguishable from "no code".  For every choice
`a` of the free samples, the frame of thirteen 0 bits (each cell: three free
samples, one sample `true`, one sample `false`) leads from the initial state to
phase Idle with `data = 0` and `dataIndex = 0`; `ir_data()` then returns 0, the
value it also returns in the initial state, although here it changes the record
(back to Standby, `dataIndex = 13`). -/
theorem zero_word_reads_as_no_code (a : Nat → Bool) :
    (∀ i, cell a 0 i = [a (3 * i), a (3 * i + 1), a (3 * i + 2), true, false]) ∧
    (run (frame a 0) ir).state = IDLE ∧ (run (frame a 0) ir).data = 0 ∧
    (run (frame a 0) ir).dataIndex = 0 ∧
    (ir_data (run (frame a 0) ir)).1 = 0 ∧
    (ir_data (run (frame a 0) ir)).2.state = STANDBY ∧
    (ir_data (run (frame a 0) ir)).2.dataIndex = 13 ∧
    (ir_data (run (frame a 0) ir)).2 ≠ run (frame a 0) ir ∧
    (ir_data ir).1 = 0 ∧ (ir_data ir).2 = ir := by
  obtain ⟨-, q2, q3, q4⟩ := run_frame a 0 ir (by decide) rfl rfl rfl rfl
  have q3z : (run (frame a 0) ir).data = 0 := by simpa using q3
  refine ⟨fun i => by simp [cell], q2, q3z, q4, ?_, ?_, ?_, ?_, by decide, by decide⟩
  · rw [ir_data_of_idle _ q2]
    dsimp only
    exact q3z
  · rw [ir_data_of_idle _ q2]
  · rw [ir_data_of_idle _ q2]
  · rw [ir_data_of_idle _ q2]
    intro hEq
    have h1 := congrArg irVariables.state hEq
    rw [q2] at h1
    have h2 : STANDBY = IDLE := h1
    exact absurd h2 (by decide)

end IrDecoder
